import Mathlib

/-!
Shallow embedding of the DMPool backup module (src/src/backup/mod.rs) and
verification of the specification's claims about it.

The filesystem state relevant to `BackupManager` is modelled explicitly:
the live data directory (`store_path`) is a flat list of regular files,
and the backups root (`backup_dir`) is a list of directories, each a flat
list of regular files.  Directory paths inside the backups root are
identified by their child name (the `backup_dir.join(name)` of the code).
Filesystem failures of `remove_dir_all` are modelled by a set of
undeletable directory names carried in the state.
-/

set_option maxRecDepth 4096

/-- Backup metadata, from struct BackupMetadata (src/src/backup/mod.rs).
Timestamps are modelled as natural numbers (seconds); paths as strings. -/
structure BackupMetadata where
  backup_name : String
  created_at : Nat
  store_path : String
  backup_path : String
  size_bytes : Nat
  version : String
deriving DecidableEq, Repr

/-- Length in bytes of serde_json::to_string_pretty(metadata) as written by
save_metadata.  Modelled abstractly but concretely: the pretty-printed JSON
always contains the braces, the six field names with quotes and punctuation
(a fixed overhead) plus the rendered field values. -/
def metadataJsonLen (m : BackupMetadata) : Nat :=
  104 + m.backup_name.length + (Nat.repr m.created_at).length
      + m.store_path.length + m.backup_path.length
      + (Nat.repr m.size_bytes).length + m.version.length

/-- Content of a regular file: either raw bytes, or the serialized metadata
sidecar produced by save_metadata (a metadata.json file whose JSON text
round-trips through serde).  A .bytes content in a file named metadata.json
models a sidecar that serde_json::from_str cannot parse. -/
inductive FContent where
  | bytes (data : List Nat)
  | meta (m : BackupMetadata)
deriving DecidableEq, Repr

/-- Size in bytes of a file content (entry.metadata().len()). -/
def fsize : FContent → Nat
  | .bytes data => data.length
  | .meta m => metadataJsonLen m

/-- One regular file: a name and its content. -/
structure FsFile where
  name : String
  content : FContent
deriving DecidableEq, Repr

/-- One directory in the backups root: its name, its regular files, and its
modification time (used by load_metadata's legacy synthesis). -/
structure FsDir where
  name : String
  files : List FsFile
  mtime : Nat
deriving DecidableEq, Repr

/-- The filesystem state seen by BackupManager: the live data directory
(none when the source path does not exist), the directories of the backups
root, and the set of directory names whose remove_dir_all fails. -/
structure FileSys where
  live : Option (List FsFile)
  backups : List FsDir
  undeletable : List String
deriving DecidableEq, Repr

/-- Configuration of struct BackupManager (src/src/backup/mod.rs): the
store path label, the retention count and the (unused) compression flag.
The backup_dir is the backups root of the FileSys. -/
structure BackupManager where
  store_path : String
  max_backups : Nat
  compression_enabled : Bool
deriving DecidableEq, Repr

/-- Value of env!("CARGO_PKG_VERSION") recorded in fresh metadata. -/
def cargoPkgVersion : String := "0.1.0"

/-- Rendering of timestamp.format("%Y%m%d_%H%M%S"): an injective,
second-resolution textual form of the time, modelled as the decimal
rendering of the seconds value. -/
def fmtTimestamp (t : Nat) : String := Nat.repr t

/-- Rust str::starts_with. -/
def strStartsWith (s p : String) : Bool := p.data.isPrefixOf s.data

/-- Lookup of a file by name in a flat directory listing. -/
def getFile (files : List FsFile) (n : String) : Option FContent :=
  (files.find? (fun g => g.name == n)).map (fun g => g.content)

/-- Overwriting creation of one file (std::fs::copy / std::fs::write into a
directory): replaces an existing file of the same name, else appends. -/
def putFile (files : List FsFile) (f : FsFile) : List FsFile :=
  if files.any (fun g => g.name == f.name) then
    files.map (fun g => if g.name == f.name then f else g)
  else files ++ [f]

/-- Copying every file of src into a directory holding dst, one fs::copy
per source file, in listing order. -/
def copyFiles (src dst : List FsFile) : List FsFile :=
  src.foldl putFile dst

/-- Existence test of backup_dir.join(n). -/
def dirExists (fs : FileSys) (n : String) : Bool :=
  fs.backups.any (fun d => d.name == n)

/-- The directory of the backups root named n (meaningful when it exists). -/
def getDir (fs : FileSys) (n : String) : FsDir :=
  (fs.backups.find? (fun d => d.name == n)).getD ⟨n, [], 0⟩

/-- Replacing the files of the directory named n. -/
def updateDir (fs : FileSys) (n : String) (f : List FsFile → List FsFile) : FileSys :=
  { fs with backups := fs.backups.map (fun d => if d.name == n then ⟨d.name, f d.files, d.mtime⟩ else d) }

/-- std::fs::create_dir_all inside the backups root: no-op when the
directory already exists, else creates it empty with mtime now. -/
def createDirAll (fs : FileSys) (n : String) (now : Nat) : FileSys :=
  if dirExists fs n then fs
  else { fs with backups := fs.backups ++ [⟨n, [], now⟩] }

/-- Errors of the backup module (anyhow messages of src/src/backup/mod.rs). -/
inductive BackupError where
  | notFound (name : String)
  | sourceMissing
  | parseError
  | backupPathMissing
  | missingCurrent
  | removeFailed (path : String)
deriving DecidableEq, Repr

deriving instance DecidableEq for Except

/-- std::fs::remove_dir_all of a directory of the backups root: fails when
the path does not exist or the filesystem refuses the removal. -/
def removeDirAll (fs : FileSys) (n : String) : Except BackupError FileSys :=
  if n ∈ fs.undeletable then .error (.removeFailed n)
  else if dirExists fs n then
    .ok { fs with backups := fs.backups.filter (fun d => ¬ d.name == n) }
  else .error (.removeFailed n)

/-- BackupManager::calculate_size (src/src/backup/mod.rs:312-325): sum of
the sizes of the regular files directly under the path. -/
def BackupManager.calculate_size (files : List FsFile) : Nat :=
  (files.map (fun f => fsize f.content)).sum

/-- BackupManager::copy_database_files (src/src/backup/mod.rs:184-212):
fails when the source path does not exist, else copies every regular file
of the live directory into dest under the same name. -/
def BackupManager.copy_database_files (fs : FileSys) (dest : String) : Except BackupError FileSys :=
  match fs.live with
  | none => .error .sourceMissing
  | some lfiles => .ok (updateDir fs dest (fun files => copyFiles lfiles files))

/-- BackupManager::save_metadata (src/src/backup/mod.rs:279-284): writes
the serialized metadata as metadata.json inside metadata.backup_path. -/
def BackupManager.save_metadata (fs : FileSys) (m : BackupMetadata) : FileSys :=
  updateDir fs m.backup_path (fun files => putFile files ⟨"metadata.json", .meta m⟩)

/-- BackupManager::load_metadata (src/src/backup/mod.rs:286-305): parses
the metadata.json sidecar of the directory; when the sidecar is absent,
synthesizes a legacy record from the directory name, its modification time
and a size recomputation, with version unknown; a sidecar that does not
parse is an error. -/
def BackupManager.load_metadata (bm : BackupManager) (d : FsDir) : Except BackupError BackupMetadata :=
  match getFile d.files "metadata.json" with
  | none => .ok {
      backup_name := d.name
      created_at := d.mtime
      store_path := bm.store_path
      backup_path := d.name
      size_bytes := BackupManager.calculate_size d.files
      version := "unknown" }
  | some (.meta m) => .ok m
  | some (.bytes _) => .error .parseError

/-- BackupManager::list_backups (src/src/backup/mod.rs:112-135): keeps the
directories of the backups root whose name starts with dmpool_backup_,
loads each record, skips any entry whose metadata fails to load, and sorts
the result descending by created_at, as sort_by with the comparator
b.created_at.cmp(&a.created_at).  The sort is modelled by a stable
insertion sort under the same total ordering. -/
def BackupManager.list_backups (bm : BackupManager) (fs : FileSys) : List BackupMetadata :=
  ((fs.backups.filter (fun d => strStartsWith d.name "dmpool_backup_")).filterMap
    (fun d => (BackupManager.load_metadata bm d).toOption)).insertionSort
    (fun a b => b.created_at ≤ a.created_at)

instance : IsTotal BackupMetadata (fun a b => b.created_at ≤ a.created_at) :=
  ⟨fun a b => Nat.le_total b.created_at a.created_at⟩

instance : IsTrans BackupMetadata (fun a b => b.created_at ≤ a.created_at) :=
  ⟨fun _ _ _ h1 h2 => Nat.le_trans h2 h1⟩

/-- Deletion loop of BackupManager::cleanup_old_backups (src/src/backup/mod.rs:256-264):
removes each excess record's backup_path in order, stopping at the first
failure, which is returned. -/
def deleteLoop : List BackupMetadata → FileSys → Except BackupError Unit × FileSys
  | [], fs => (.ok (), fs)
  | b :: rest, fs =>
    match removeDirAll fs b.backup_path with
    | .error e => (.error e, fs)
    | .ok fs1 => deleteLoop rest fs1

/-- BackupManager::cleanup_old_backups (src/src/backup/mod.rs:249-265):
lists the catalog; when its length is at most max_backups, does nothing;
else deletes every record from index max_backups on, fail-fast.  The Rust
function returns Result of unit. -/
def BackupManager.cleanup_old_backups (bm : BackupManager) (fs : FileSys) :
    Except BackupError Unit × FileSys :=
  let backups := BackupManager.list_backups bm fs
  if backups.length ≤ bm.max_backups then (.ok (), fs)
  else deleteLoop (backups.drop bm.max_backups) fs

/-- Modelled from the spec: the administrative operation
cleanup_old_backups returning removed_count.  The implementing module is
not under src/ (src/src/bin/dmpool_admin.rs:1241-1244 is its caller and
consumes the count; src/src/lib.rs re-exports a BackupManager API richer
than src/src/backup/mod.rs).  Its deletion pass is the algorithm of
BackupManager::cleanup_old_backups above; per the spec it returns 0 on a
no-op and the number of records removed otherwise. -/
def BackupManager.cleanup_count (bm : BackupManager) (fs : FileSys) :
    Except BackupError Nat × FileSys :=
  let backups := BackupManager.list_backups bm fs
  if backups.length ≤ bm.max_backups then (.ok 0, fs)
  else
    match deleteLoop (backups.drop bm.max_backups) fs with
    | (.ok _, fs1) => (.ok (backups.length - bm.max_backups), fs1)
    | (.error e, fs1) => (.error e, fs1)

/-- BackupManager::backup (src/src/backup/mod.rs:38-77): names the backup
from the current time, creates the destination directory, copies the live
files, measures size_bytes on the destination before the sidecar is
written, persists the sidecar, then runs the retention pass, whose error
is propagated. -/
def BackupManager.backup (bm : BackupManager) (now : Nat) (fs : FileSys) :
    Except BackupError BackupMetadata × FileSys :=
  let backup_name := "dmpool_backup_" ++ fmtTimestamp now
  let fs1 := createDirAll fs backup_name now
  match BackupManager.copy_database_files fs1 backup_name with
  | .error e => (.error e, fs1)
  | .ok fs2 =>
    let metadata : BackupMetadata := {
      backup_name := backup_name
      created_at := now
      store_path := bm.store_path
      backup_path := backup_name
      size_bytes := BackupManager.calculate_size (getDir fs2 backup_name).files
      version := cargoPkgVersion }
    let fs3 := BackupManager.save_metadata fs2 metadata
    match BackupManager.cleanup_old_backups bm fs3 with
    | (.error e, fs4) => (.error e, fs4)
    | (.ok _, fs4) => (.ok metadata, fs4)

/-- BackupManager::verify (src/src/backup/mod.rs:138-160): not-found error
when the directory is absent; loads the record; false when the CURRENT
sentinel is absent; false when a size recomputation differs from the
recorded size_bytes; else true. -/
def BackupManager.verify (bm : BackupManager) (backup_name : String) (fs : FileSys) :
    Except BackupError Bool :=
  if ¬ dirExists fs backup_name then .error (.notFound backup_name)
  else
    match BackupManager.load_metadata bm (getDir fs backup_name) with
    | .error e => .error e
    | .ok m =>
      if (getFile (getDir fs backup_name).files "CURRENT").isNone then .ok false
      else if BackupManager.calculate_size (getDir fs backup_name).files ≠ m.size_bytes then .ok false
      else .ok true

/-- BackupManager::validate_backup (src/src/backup/mod.rs:267-277): the
recorded backup_path must exist and contain the CURRENT sentinel; no size
verification is performed. -/
def BackupManager.validate_backup (fs : FileSys) (m : BackupMetadata) : Except BackupError Unit :=
  if ¬ dirExists fs m.backup_path then .error .backupPathMissing
  else if (getFile (getDir fs m.backup_path).files "CURRENT").isNone then .error .missingCurrent
  else .ok ()

/-- BackupManager::restore_database_files (src/src/backup/mod.rs:214-247):
deletes every regular file under the live path (creating it when missing),
then copies every file of the backup directory into it. -/
def BackupManager.restore_database_files (fs : FileSys) (backup_path : String) : FileSys :=
  { fs with live := some (copyFiles (getDir fs backup_path).files []) }

/-- BackupManager::restore (src/src/backup/mod.rs:79-109): not-found error
when the directory is absent; loads and validates the record; creates the
pre_restore_ safety snapshot of the live data; then destructively replaces
the live data with the backup directory's files. -/
def BackupManager.restore (bm : BackupManager) (backup_name : String) (now : Nat) (fs : FileSys) :
    Except BackupError Unit × FileSys :=
  if ¬ dirExists fs backup_name then (.error (.notFound backup_name), fs)
  else
    match BackupManager.load_metadata bm (getDir fs backup_name) with
    | .error e => (.error e, fs)
    | .ok m =>
      match BackupManager.validate_backup fs m with
      | .error e => (.error e, fs)
      | .ok _ =>
        let pre := "pre_restore_" ++ fmtTimestamp now
        let fs1 := createDirAll fs pre now
        match BackupManager.copy_database_files fs1 pre with
        | .error e => (.error e, fs1)
        | .ok fs2 => (.ok (), BackupManager.restore_database_files fs2 backup_name)


/-- Metadata record built by BackupManager::backup at time now from live
files lf (name and path are the timestamped directory name, size_bytes is
measured on the copied files before the sidecar is written). -/
def mkMeta (bm : BackupManager) (now : Nat) (lf : List FsFile) : BackupMetadata :=
  { backup_name := "dmpool_backup_" ++ fmtTimestamp now
    created_at := now
    store_path := bm.store_path
    backup_path := "dmpool_backup_" ++ fmtTimestamp now
    size_bytes := BackupManager.calculate_size lf
    version := cargoPkgVersion }

/-- Duplicate-freedom of the file names of one directory listing. -/
def filesNodup (files : List FsFile) : Prop := (files.map FsFile.name).Nodup

/-- Duplicate-freedom of the directory names of the backups root. -/
def dirsNodup (fs : FileSys) : Prop := (fs.backups.map FsDir.name).Nodup

instance (files : List FsFile) : Decidable (filesNodup files) := by
  unfold filesNodup; infer_instance

instance (fs : FileSys) : Decidable (dirsNodup fs) := by
  unfold dirsNodup; infer_instance

/-- Sanity of the sidecars of the backups root: every record that loads
from a directory names that directory as its backup_path (true of every
sidecar written by save_metadata and of every synthesized legacy record). -/
def pathsOwn (bm : BackupManager) (fs : FileSys) : Bool :=
  fs.backups.all (fun d =>
    match BackupManager.load_metadata bm d with
    | .ok m => m.backup_path == d.name
    | .error _ => true)

/-- Concrete live-store contents used by the witness scenarios. -/
def liveA : List FsFile := [⟨"CURRENT", .bytes [1, 2, 3, 4]⟩, ⟨"000001.log", .bytes [9, 9]⟩]

/-- Manager with a loose retention count. -/
def bmA : BackupManager := ⟨"/data/store", 5, true⟩

/-- Manager with retention count 1. -/
def bmK1 : BackupManager := ⟨"/data/store", 1, true⟩

/-- Manager with retention count 2. -/
def bmK2 : BackupManager := ⟨"/data/store", 2, true⟩

/-- A well-formed backup directory created at time t. -/
def mkBackupDir (t : Nat) : FsDir :=
  ⟨"dmpool_backup_" ++ fmtTimestamp t,
   [⟨"CURRENT", .bytes [7]⟩,
    ⟨"metadata.json", .meta ⟨"dmpool_backup_" ++ fmtTimestamp t, t, "/data/store",
      "dmpool_backup_" ++ fmtTimestamp t, 1, "0.1.0"⟩⟩], t⟩

/-- Fresh store with an empty backups root. -/
def fsA : FileSys := ⟨some liveA, [], []⟩

/-- Backups root holding three backups, created at times 1, 3 and 2. -/
def fsThree : FileSys := ⟨some [], [mkBackupDir 1, mkBackupDir 3, mkBackupDir 2], []⟩

/-- Backups root holding five backups, the one of time 3 undeletable. -/
def fsFive : FileSys :=
  ⟨some [], [mkBackupDir 1, mkBackupDir 2, mkBackupDir 3, mkBackupDir 4, mkBackupDir 5],
   ["dmpool_backup_3"]⟩

/-- Store with one old backup that the filesystem refuses to delete. -/
def fsStuck : FileSys := ⟨some liveA, [mkBackupDir 1], ["dmpool_backup_1"]⟩

/-- Backups root with a backup directory that lacks the CURRENT sentinel. -/
def fsNoCur : FileSys :=
  ⟨some liveA, [⟨"dmpool_backup_8", [⟨"000001.log", .bytes [1, 2]⟩], 8⟩], []⟩

/-- Backups root with a structurally complete backup whose recorded size
disagrees with its contents. -/
def fsBadSize : FileSys :=
  ⟨some liveA,
   [⟨"dmpool_backup_8",
     [⟨"CURRENT", .bytes [1, 2]⟩,
      ⟨"metadata.json", .meta ⟨"dmpool_backup_8", 8, "/data/store", "dmpool_backup_8",
        9999, "0.1.0"⟩⟩], 8⟩], []⟩

/-- State whose live-data path does not exist. -/
def fsNoSrc : FileSys := ⟨none, [], []⟩

/-- Round-trip scenario: back up the store at t=5, restore that backup at
t=7, then back up the restored store at t=9. -/
def fsRound1 : FileSys := (BackupManager.backup bmA 5 fsA).2

/-- Second state of the round-trip scenario. -/
def fsRound2 : FileSys :=
  (BackupManager.restore bmA ("dmpool_backup_" ++ fmtTimestamp 5) 7 fsRound1).2

/-- Final state of the round-trip scenario. -/
def fsRound3 : FileSys := (BackupManager.backup bmA 9 fsRound2).2

/-! Helper lemmas: strings and name prefixes. -/

theorem strStartsWith_append (p r : String) : strStartsWith (p ++ r) p = true := by
  simp [strStartsWith]

theorem strStartsWith_pre (r : String) :
    strStartsWith ("pre_restore_" ++ r) "dmpool_backup_" = false := by
  rw [Bool.eq_false_iff]
  intro h
  unfold strStartsWith at h
  rw [String.data_append, List.isPrefixOf_iff_prefix] at h
  rw [show "dmpool_backup_".data = 'd' :: "mpool_backup_".data from rfl] at h
  rw [show "pre_restore_".data = 'p' :: "re_restore_".data from rfl, List.cons_append] at h
  rw [List.cons_prefix_cons] at h
  exact absurd h.1 (by decide)

theorem ne_of_startsWith_ne {a b p : String}
    (ha : strStartsWith a p = true) (hb : strStartsWith b p = false) : a ≠ b := by
  intro h; rw [h] at ha; rw [ha] at hb; simp at hb

/-! Helper lemmas: flat directory listings. -/

theorem getFile_eq_none (files : List FsFile) (n : String)
    (h : ∀ g ∈ files, g.name ≠ n) : getFile files n = none := by
  unfold getFile
  rw [Option.map_eq_none', List.find?_eq_none]
  intro x hx
  simpa using h x hx

theorem putFile_absent (files : List FsFile) (f : FsFile)
    (h : ∀ g ∈ files, g.name ≠ f.name) : putFile files f = files ++ [f] := by
  have hany : files.any (fun g => g.name == f.name) = false := by
    rw [List.any_eq_false]
    intro x hx
    simpa using h x hx
  simp [putFile, hany]

theorem putFile_replace_last (xs : List FsFile) (nm : String) (c c2 : FContent)
    (h : ∀ g ∈ xs, g.name ≠ nm) :
    putFile (xs ++ [⟨nm, c⟩]) ⟨nm, c2⟩ = xs ++ [⟨nm, c2⟩] := by
  have hany : (xs ++ [(⟨nm, c⟩ : FsFile)]).any (fun g => g.name == (⟨nm, c2⟩ : FsFile).name) = true := by
    rw [List.any_eq_true]
    exact ⟨⟨nm, c⟩, by simp, by simp⟩
  rw [putFile, if_pos hany, List.map_append]
  congr 1
  · have hid : ∀ g ∈ xs,
        (if (g.name == (⟨nm, c2⟩ : FsFile).name) = true then (⟨nm, c2⟩ : FsFile) else g) = id g := by
      intro g hg
      have hne : (g.name == nm) = false := by simpa using h g hg
      simp [hne]
    rw [List.map_congr_left hid, List.map_id]
  · simp

theorem getFile_append_last (xs : List FsFile) (f : FsFile)
    (h : ∀ g ∈ xs, g.name ≠ f.name) :
    getFile (xs ++ [f]) f.name = some f.content := by
  unfold getFile
  rw [List.find?_append]
  have h1 : xs.find? (fun g => g.name == f.name) = none := by
    rw [List.find?_eq_none]; intro x hx; simpa using h x hx
  simp [h1]

theorem getFile_append_ne (xs : List FsFile) (f : FsFile) (n : String)
    (h : f.name ≠ n) : getFile (xs ++ [f]) n = getFile xs n := by
  unfold getFile
  rw [List.find?_append]
  have h1 : [f].find? (fun g => g.name == n) = none := by
    rw [List.find?_eq_none]; intro x hx; simp at hx; subst hx; simpa using h
  rw [h1]
  cases xs.find? (fun g => g.name == n) <;> rfl

theorem foldl_putFile_disjoint : ∀ (src acc : List FsFile),
    (∀ f ∈ src, ∀ g ∈ acc, g.name ≠ f.name) → filesNodup src →
    List.foldl putFile acc src = acc ++ src
  | [], acc, _, _ => by simp
  | f :: rest, acc, hdisj, hnd => by
    rw [List.foldl_cons, putFile_absent acc f (fun g hg => hdisj f (by simp) g hg)]
    have hcons : (FsFile.name f :: rest.map FsFile.name).Nodup := by
      have := hnd; unfold filesNodup at this; simpa using this
    have hnd' : filesNodup rest := (List.nodup_cons.mp hcons).2
    have hhead : f.name ∉ rest.map FsFile.name := (List.nodup_cons.mp hcons).1
    rw [foldl_putFile_disjoint rest (acc ++ [f]) ?_ hnd']
    · simp
    · intro x hx g hg
      rcases List.mem_append.1 hg with h1 | h2
      · exact hdisj x (by simp [hx]) g h1
      · simp at h2; subst h2
        intro heq
        apply hhead
        rw [heq]
        exact List.mem_map_of_mem FsFile.name hx

theorem copyFiles_nil (src : List FsFile) (h : filesNodup src) :
    copyFiles src [] = src := by
  unfold copyFiles
  rw [foldl_putFile_disjoint src [] (by intro f _ g hg; simp at hg) h]
  simp

theorem metadataJsonLen_pos (m : BackupMetadata) : 0 < metadataJsonLen m := by
  unfold metadataJsonLen; omega

theorem calculate_size_append (xs ys : List FsFile) :
    BackupManager.calculate_size (xs ++ ys) =
      BackupManager.calculate_size xs + BackupManager.calculate_size ys := by
  simp [BackupManager.calculate_size]

/-! Helper lemmas: directories of the backups root. -/

theorem find?_name_map_preserve (l : List FsDir) (g : FsDir → FsDir)
    (hg : ∀ d, (g d).name = d.name) (m : String) :
    (l.map g).find? (fun d => d.name == m) = (l.find? (fun d => d.name == m)).map g := by
  induction l with
  | nil => rfl
  | cons d rest ih =>
    by_cases h : (d.name == m) = true
    · have hgd : ((g d).name == m) = true := by rw [hg]; exact h
      rw [List.map_cons,
        @List.find?_cons_of_pos _ (fun x => x.name == m) (g d) (rest.map g) hgd,
        @List.find?_cons_of_pos _ (fun x => x.name == m) d rest h]
      rfl
    · have hgd : ¬ ((g d).name == m) = true := by rw [hg]; exact h
      rw [List.map_cons,
        @List.find?_cons_of_neg _ (fun x => x.name == m) (g d) (rest.map g) hgd,
        @List.find?_cons_of_neg _ (fun x => x.name == m) d rest h, ih]

theorem any_name_map_preserve (l : List FsDir) (g : FsDir → FsDir)
    (hg : ∀ d, (g d).name = d.name) (m : String) :
    (l.map g).any (fun d => d.name == m) = l.any (fun d => d.name == m) := by
  induction l with
  | nil => rfl
  | cons d rest ih => simp only [List.map_cons, List.any_cons, hg, ih]

theorem updName (n : String) (f : List FsFile → List FsFile) (d : FsDir) :
    ((if d.name == n then (⟨d.name, f d.files, d.mtime⟩ : FsDir) else d)).name = d.name := by
  by_cases h : (d.name == n) = true <;> simp [h]

theorem live_updateDir (fs : FileSys) (n : String) (f : List FsFile → List FsFile) :
    (updateDir fs n f).live = fs.live := rfl

theorem undeletable_updateDir (fs : FileSys) (n : String) (f : List FsFile → List FsFile) :
    (updateDir fs n f).undeletable = fs.undeletable := rfl

theorem live_createDirAll (fs : FileSys) (n : String) (t : Nat) :
    (createDirAll fs n t).live = fs.live := by
  unfold createDirAll; split <;> rfl

theorem undeletable_createDirAll (fs : FileSys) (n : String) (t : Nat) :
    (createDirAll fs n t).undeletable = fs.undeletable := by
  unfold createDirAll; split <;> rfl

theorem dirExists_updateDir (fs : FileSys) (n m : String) (f : List FsFile → List FsFile) :
    dirExists (updateDir fs n f) m = dirExists fs m := by
  unfold dirExists updateDir
  exact any_name_map_preserve fs.backups _ (updName n f) m

theorem dirExists_iff (fs : FileSys) (n : String) :
    dirExists fs n = true ↔ ∃ d ∈ fs.backups, d.name = n := by
  unfold dirExists
  rw [List.any_eq_true]
  constructor
  · rintro ⟨d, hd, he⟩; exact ⟨d, hd, by simpa using he⟩
  · rintro ⟨d, hd, he⟩; exact ⟨d, hd, by simpa using he⟩

theorem getDir_updateDir_self (fs : FileSys) (n : String) (f : List FsFile → List FsFile)
    (h : dirExists fs n = true) :
    getDir (updateDir fs n f) n = ⟨n, f (getDir fs n).files, (getDir fs n).mtime⟩ := by
  unfold getDir updateDir
  rw [find?_name_map_preserve fs.backups _ (updName n f) n]
  unfold dirExists at h
  rw [List.any_eq_true] at h
  obtain ⟨d, hd, he⟩ := h
  obtain ⟨d', hfind⟩ : ∃ d', fs.backups.find? (fun d => d.name == n) = some d' := by
    cases hf : fs.backups.find? (fun d => d.name == n) with
    | some d' => exact ⟨d', rfl⟩
    | none =>
      rw [List.find?_eq_none] at hf
      exact absurd he (hf d hd)
  have hname : d'.name = n := by
    have := List.find?_some hfind
    simpa using this
  rw [hfind]
  simp [hname]

theorem getDir_updateDir_ne (fs : FileSys) (n m : String) (f : List FsFile → List FsFile)
    (h : m ≠ n) : getDir (updateDir fs n f) m = getDir fs m := by
  unfold getDir updateDir
  rw [find?_name_map_preserve fs.backups _ (updName n f) m]
  cases hf : fs.backups.find? (fun d => d.name == m) with
  | none => rfl
  | some d =>
    have hname : d.name = m := by
      have := List.find?_some hf
      simpa using this
    have : (d.name == n) = false := by
      rw [hname]; simpa using h
    simp only [Option.map, Option.getD, this, Bool.false_eq_true, if_false]

theorem dirExists_createDirAll_self (fs : FileSys) (n : String) (t : Nat) :
    dirExists (createDirAll fs n t) n = true := by
  unfold createDirAll
  split
  · assumption
  · unfold dirExists
    rw [List.any_eq_true]
    exact ⟨⟨n, [], t⟩, by simp, by simp⟩

theorem dirExists_createDirAll_ne (fs : FileSys) (n m : String) (t : Nat)
    (h : m ≠ n) : dirExists (createDirAll fs n t) m = dirExists fs m := by
  unfold createDirAll
  split
  · rfl
  · unfold dirExists
    rw [List.any_append]
    have : ([(⟨n, [], t⟩ : FsDir)].any (fun d => d.name == m)) = false := by
      simpa using fun he => h he.symm
    rw [this, Bool.or_false]

theorem getDir_createDirAll_self (fs : FileSys) (n : String) (t : Nat)
    (h : dirExists fs n = false) :
    getDir (createDirAll fs n t) n = ⟨n, [], t⟩ := by
  unfold createDirAll
  rw [h]
  simp only [Bool.false_eq_true, if_false]
  unfold getDir
  rw [List.find?_append]
  have h1 : fs.backups.find? (fun d => d.name == n) = none := by
    rw [List.find?_eq_none]
    intro d hd
    unfold dirExists at h
    rw [List.any_eq_false] at h
    exact h d hd
  simp [h1]

theorem getDir_createDirAll_ne (fs : FileSys) (n m : String) (t : Nat)
    (h : m ≠ n) : getDir (createDirAll fs n t) m = getDir fs m := by
  unfold createDirAll
  split
  · rfl
  · unfold getDir
    rw [List.find?_append]
    have h1 : ([(⟨n, [], t⟩ : FsDir)].find? (fun d => d.name == m)) = none := by
      rw [List.find?_eq_none]
      intro d hd
      simp at hd
      subst hd
      simpa using fun he => h he.symm
    rw [h1]
    cases fs.backups.find? (fun d => d.name == m) <;> rfl

/-! Helper lemmas: deletion loop. -/

theorem removeDirAll_ok (fs : FileSys) (n : String)
    (h1 : n ∉ fs.undeletable) (h2 : dirExists fs n = true) :
    removeDirAll fs n =
      .ok { fs with backups := fs.backups.filter (fun d => ¬ d.name == n) } := by
  unfold removeDirAll
  rw [if_neg h1, if_pos h2]

theorem deleteLoop_state : ∀ (l : List BackupMetadata) (fs : FileSys),
    (deleteLoop l fs).2.live = fs.live ∧
    (deleteLoop l fs).2.undeletable = fs.undeletable ∧
    (deleteLoop l fs).2.backups.Sublist fs.backups
  | [], fs => ⟨rfl, rfl, List.Sublist.refl _⟩
  | b :: rest, fs => by
    unfold deleteLoop
    cases hr : removeDirAll fs b.backup_path with
    | error e => exact ⟨rfl, rfl, List.Sublist.refl _⟩
    | ok fs1 =>
      have hfs1 : fs1.live = fs.live ∧ fs1.undeletable = fs.undeletable ∧
          fs1.backups.Sublist fs.backups := by
        unfold removeDirAll at hr
        split at hr
        · exact absurd hr (by simp)
        · split at hr
          · injection hr with h
            rw [← h]
            exact ⟨rfl, rfl, List.filter_sublist _⟩
          · exact absurd hr (by simp)
      have ih := deleteLoop_state rest fs1
      exact ⟨ih.1.trans hfs1.1, ih.2.1.trans hfs1.2.1, ih.2.2.trans hfs1.2.2⟩

theorem deleteLoop_keeps : ∀ (l : List BackupMetadata) (fs : FileSys) (d : FsDir),
    d ∈ fs.backups → d.name ∉ l.map (fun b => b.backup_path) →
    d ∈ (deleteLoop l fs).2.backups
  | [], fs, d, hd, _ => hd
  | b :: rest, fs, d, hd, hn => by
    unfold deleteLoop
    cases hr : removeDirAll fs b.backup_path with
    | error e => exact hd
    | ok fs1 =>
      have hne : d.name ≠ b.backup_path := by
        intro he; exact hn (by rw [he]; simp)
      have hd1 : d ∈ fs1.backups := by
        unfold removeDirAll at hr
        split at hr
        · exact absurd hr (by simp)
        · split at hr
          · injection hr with h
            rw [← h]
            simp only [List.mem_filter]
            exact ⟨hd, by simpa using hne⟩
          · exact absurd hr (by simp)
      exact deleteLoop_keeps rest fs1 d hd1 (fun hmem => hn (by simp at hmem ⊢; tauto))

theorem deleteLoop_ok : ∀ (l : List BackupMetadata) (fs : FileSys),
    (∀ b ∈ l, dirExists fs b.backup_path = true) →
    (∀ b ∈ l, b.backup_path ∉ fs.undeletable) →
    ((l.map (fun b => b.backup_path)).Nodup) →
    deleteLoop l fs =
      (.ok (), { fs with
        backups := fs.backups.filter (fun d => decide (d.name ∉ l.map (fun b => b.backup_path))) })
  | [], fs, _, _, _ => by
    simp only [deleteLoop, List.map_nil, List.not_mem_nil, not_false_iff, decide_True,
      List.filter_true]
  | b :: rest, fs, hex, hdel, hnd => by
    have hndc : b.backup_path ∉ rest.map (fun x => x.backup_path) ∧
        (rest.map (fun x => x.backup_path)).Nodup := by
      have := hnd; rw [List.map_cons, List.nodup_cons] at this; exact this
    have hstep : deleteLoop (b :: rest) fs = deleteLoop rest
        { fs with backups := fs.backups.filter (fun d => ¬ d.name == b.backup_path) } := by
      conv_lhs => rw [deleteLoop]
      rw [removeDirAll_ok fs b.backup_path (hdel b (by simp)) (hex b (by simp))]
    have hex1 : ∀ x ∈ rest, dirExists
        { fs with backups := fs.backups.filter (fun d => ¬ d.name == b.backup_path) }
        x.backup_path = true := by
      intro x hx
      have hdix := hex x (by simp [hx])
      rw [dirExists_iff] at hdix ⊢
      obtain ⟨d, hd, he⟩ := hdix
      refine ⟨d, ?_, he⟩
      simp only [List.mem_filter]
      refine ⟨hd, ?_⟩
      have hne : d.name ≠ b.backup_path := by
        rw [he]
        intro hcontra
        exact hndc.1 (by rw [← hcontra]; exact List.mem_map_of_mem _ hx)
      simpa using hne
    have hdel1 : ∀ x ∈ rest, x.backup_path ∉
        ({ fs with backups := fs.backups.filter (fun d => ¬ d.name == b.backup_path) }
          : FileSys).undeletable := by
      intro x hx; exact hdel x (by simp [hx])
    rw [hstep, deleteLoop_ok rest _ hex1 hdel1 hndc.2]
    have hback : (fs.backups.filter (fun d => ¬ d.name == b.backup_path)).filter
          (fun d => decide (d.name ∉ rest.map (fun x => x.backup_path)))
        = fs.backups.filter
          (fun d => decide (d.name ∉ (b :: rest).map (fun x => x.backup_path))) := by
      simp only [List.filter_filter]
      apply List.filter_congr
      intro d _
      by_cases h1 : d.name ∈ rest.map (fun x => x.backup_path) <;>
        by_cases h2 : d.name = b.backup_path <;>
          simp [h1, h2]
    simp only [hback]

/-! Helper lemmas: the catalog. -/

theorem toOption_eq_some {e : Except BackupError BackupMetadata} {m : BackupMetadata} :
    e.toOption = some m ↔ e = .ok m := by
  cases e <;> simp [Except.toOption]

theorem list_backups_sorted (bm : BackupManager) (fs : FileSys) :
    (BackupManager.list_backups bm fs).Pairwise
      (fun a b => b.created_at ≤ a.created_at) := by
  unfold BackupManager.list_backups
  exact List.sorted_insertionSort _ _

theorem list_backups_perm (bm : BackupManager) (fs : FileSys) :
    (BackupManager.list_backups bm fs).Perm
      ((fs.backups.filter (fun d => strStartsWith d.name "dmpool_backup_")).filterMap
        (fun d => (BackupManager.load_metadata bm d).toOption)) :=
  List.perm_insertionSort _ _

theorem mem_list_backups (bm : BackupManager) (fs : FileSys) (m : BackupMetadata) :
    m ∈ BackupManager.list_backups bm fs ↔
      ∃ d ∈ fs.backups, strStartsWith d.name "dmpool_backup_" = true ∧
        BackupManager.load_metadata bm d = .ok m := by
  unfold BackupManager.list_backups
  rw [(List.perm_insertionSort _ _).mem_iff, List.mem_filterMap]
  constructor
  · rintro ⟨d, hd, hload⟩
    rw [List.mem_filter] at hd
    exact ⟨d, hd.1, hd.2, toOption_eq_some.mp hload⟩
  · rintro ⟨d, hd, hpfx, hload⟩
    exact ⟨d, List.mem_filter.2 ⟨hd, hpfx⟩, toOption_eq_some.mpr hload⟩

theorem pathsOwn_spec {bm : BackupManager} {fs : FileSys} (h : pathsOwn bm fs = true) :
    ∀ d ∈ fs.backups, ∀ m, BackupManager.load_metadata bm d = .ok m →
      m.backup_path = d.name := by
  intro d hd m hm
  have hall := List.all_eq_true.mp h d hd
  rw [hm] at hall
  simpa using hall

theorem load_path_mem (bm : BackupManager) (l : List FsDir)
    (hwf : ∀ d ∈ l, ∀ m, BackupManager.load_metadata bm d = .ok m → m.backup_path = d.name)
    (m : BackupMetadata)
    (hm : m ∈ l.filterMap (fun d => (BackupManager.load_metadata bm d).toOption)) :
    m.backup_path ∈ l.map FsDir.name := by
  rw [List.mem_filterMap] at hm
  obtain ⟨d, hd, hload⟩ := hm
  rw [hwf d hd m (toOption_eq_some.mp hload)]
  exact List.mem_map_of_mem _ hd

theorem loaded_paths_nodup (bm : BackupManager) : ∀ (l : List FsDir),
    (l.map FsDir.name).Nodup →
    (∀ d ∈ l, ∀ m, BackupManager.load_metadata bm d = .ok m → m.backup_path = d.name) →
    ((l.filterMap (fun d => (BackupManager.load_metadata bm d).toOption)).map
      (fun b => b.backup_path)).Nodup
  | [], _, _ => by simp
  | d :: rest, hnd, hwf => by
    have hnds : (∀ x ∈ rest, ¬ x.name = d.name) ∧ (rest.map FsDir.name).Nodup := by
      simpa using hnd
    have ihrest := loaded_paths_nodup bm rest hnds.2
      (fun d' hd' => hwf d' (by simp [hd']))
    rw [List.filterMap_cons]
    cases hl : (BackupManager.load_metadata bm d).toOption with
    | none => exact ihrest
    | some m =>
      rw [List.map_cons]
      apply List.nodup_cons.mpr
      refine ⟨?_, ihrest⟩
      intro hmem
      rw [List.mem_map] at hmem
      obtain ⟨b, hb, he⟩ := hmem
      have hsub := load_path_mem bm rest (fun d' hd' => hwf d' (by simp [hd'])) b hb
      rw [he, hwf d (by simp) m (toOption_eq_some.mp hl)] at hsub
      rw [List.mem_map] at hsub
      obtain ⟨x, hx, hxe⟩ := hsub
      exact hnds.1 x hx hxe

theorem filterMap_filter_path (bm : BackupManager) (p : FsDir → Bool)
    (pm : BackupMetadata → Bool) : ∀ (l : List FsDir),
    (∀ d ∈ l, ∀ m, BackupManager.load_metadata bm d = .ok m → pm m = p d) →
    (l.filter p).filterMap (fun d => (BackupManager.load_metadata bm d).toOption)
      = (l.filterMap (fun d => (BackupManager.load_metadata bm d).toOption)).filter pm
  | [], _ => rfl
  | d :: rest, hcompat => by
    have ih := filterMap_filter_path bm p pm rest (fun d' hd' => hcompat d' (by simp [hd']))
    by_cases hq : p d = true
    · rw [List.filter_cons_of_pos hq, List.filterMap_cons, List.filterMap_cons]
      cases hl : (BackupManager.load_metadata bm d).toOption with
      | none => exact ih
      | some m =>
        have hp : pm m = true := by
          rw [hcompat d (by simp) m (toOption_eq_some.mp hl)]; exact hq
        rw [List.filter_cons_of_pos hp, ih]
    · rw [List.filter_cons_of_neg hq, List.filterMap_cons]
      cases hl : (BackupManager.load_metadata bm d).toOption with
      | none => exact ih
      | some m =>
        have hp : ¬ pm m = true := by
          rw [hcompat d (by simp) m (toOption_eq_some.mp hl)]; exact hq
        rw [List.filter_cons_of_neg hp, ih]

theorem pairwise_strict_of_sorted_nodup (L : List BackupMetadata)
    (hs : L.Pairwise (fun a b => b.created_at ≤ a.created_at))
    (hnd : (L.map (fun b => b.created_at)).Nodup) :
    L.Pairwise (fun a b => b.created_at < a.created_at) := by
  have hne : L.Pairwise (fun a b => a.created_at ≠ b.created_at) := by
    rw [List.Nodup, List.pairwise_map] at hnd
    exact hnd
  exact (hs.and hne).imp (fun h => by omega)

theorem sorted_desc_unique (L1 L2 : List BackupMetadata)
    (hp : L1.Perm L2)
    (h1 : L1.Pairwise (fun a b => b.created_at < a.created_at))
    (h2 : L2.Pairwise (fun a b => b.created_at < a.created_at)) : L1 = L2 := by
  haveI : IsAntisymm BackupMetadata (fun a b => b.created_at < a.created_at) :=
    ⟨fun a b hab hba => (Nat.lt_asymm hab hba).elim⟩
  exact List.eq_of_perm_of_sorted hp h1 h2

/-- C1: with a well-formed backups root (unique directory names, sidecars
naming their own directory, nothing undeletable, distinct creation times),
cleanup is a no-op returning 0 when the catalog is within the limit, and
otherwise deletes exactly the records at or beyond index max_backups of
the descending catalog, returns their count, and leaves a catalog of
exactly the max_backups newest records; the unit-returning Rust function
performs the same deletions and succeeds. -/
theorem C1_cleanup_retention (bm : BackupManager) (fs : FileSys)
    (hnd : dirsNodup fs)
    (hwf : pathsOwn bm fs = true)
    (hund : fs.undeletable = [])
    (hstrict : ((BackupManager.list_backups bm fs).map (fun b => b.created_at)).Nodup) :
    ((BackupManager.list_backups bm fs).length ≤ bm.max_backups →
      BackupManager.cleanup_count bm fs = (.ok 0, fs) ∧
      BackupManager.cleanup_old_backups bm fs = (.ok (), fs)) ∧
    (bm.max_backups < (BackupManager.list_backups bm fs).length →
      BackupManager.cleanup_count bm fs =
        (.ok ((BackupManager.list_backups bm fs).length - bm.max_backups),
          { fs with backups := fs.backups.filter (fun d => decide (d.name ∉
              (((BackupManager.list_backups bm fs).drop bm.max_backups).map
                (fun b => b.backup_path)))) }) ∧
      BackupManager.cleanup_old_backups bm fs =
        (.ok (),
          { fs with backups := fs.backups.filter (fun d => decide (d.name ∉
              (((BackupManager.list_backups bm fs).drop bm.max_backups).map
                (fun b => b.backup_path)))) }) ∧
      BackupManager.list_backups bm
          { fs with backups := fs.backups.filter (fun d => decide (d.name ∉
              (((BackupManager.list_backups bm fs).drop bm.max_backups).map
                (fun b => b.backup_path)))) }
        = (BackupManager.list_backups bm fs).take bm.max_backups) := by
  constructor
  · intro hle
    constructor
    · unfold BackupManager.cleanup_count
      simp only [if_pos hle]
    · unfold BackupManager.cleanup_old_backups
      simp only [if_pos hle]
  · intro hgt
    have hwf' := pathsOwn_spec hwf
    have hnle : ¬ (BackupManager.list_backups bm fs).length ≤ bm.max_backups := by omega
    have hperm := list_backups_perm bm fs
    have hndn : (fs.backups.map FsDir.name).Nodup := hnd
    have hpfxnd : ((fs.backups.filter
        (fun d => strStartsWith d.name "dmpool_backup_")).map FsDir.name).Nodup := by
      have hsub : ((fs.backups.filter
            (fun d => strStartsWith d.name "dmpool_backup_")).map FsDir.name).Sublist
          (fs.backups.map FsDir.name) := (List.filter_sublist _).map _
      exact hsub.nodup hndn
    have hwfF : ∀ d ∈ fs.backups.filter (fun d => strStartsWith d.name "dmpool_backup_"),
        ∀ m, BackupManager.load_metadata bm d = .ok m → m.backup_path = d.name := by
      intro d hd
      exact hwf' d (List.mem_filter.mp hd).1
    have hL0paths := loaded_paths_nodup bm _ hpfxnd hwfF
    have hLpaths : ((BackupManager.list_backups bm fs).map
        (fun b => b.backup_path)).Nodup := ((hperm.map _).nodup_iff).mpr hL0paths
    have hex : ∀ b ∈ (BackupManager.list_backups bm fs).drop bm.max_backups,
        dirExists fs b.backup_path = true := by
      intro b hb
      have hmem : b ∈ BackupManager.list_backups bm fs := List.mem_of_mem_drop hb
      rw [mem_list_backups] at hmem
      obtain ⟨d, hd, hpfx, hload⟩ := hmem
      rw [dirExists_iff]
      exact ⟨d, hd, (hwf' d hd b hload).symm⟩
    have hdel : ∀ b ∈ (BackupManager.list_backups bm fs).drop bm.max_backups,
        b.backup_path ∉ fs.undeletable := by
      intro b _
      rw [hund]
      exact List.not_mem_nil _
    have hdropnd : ((((BackupManager.list_backups bm fs).drop bm.max_backups)).map
        (fun b => b.backup_path)).Nodup := by
      have hsub : ((((BackupManager.list_backups bm fs).drop bm.max_backups)).map
            (fun b => b.backup_path)).Sublist
          ((BackupManager.list_backups bm fs).map (fun b => b.backup_path)) :=
        (List.drop_sublist _ _).map _
      exact hsub.nodup hLpaths
    have hDL := deleteLoop_ok ((BackupManager.list_backups bm fs).drop bm.max_backups)
      fs hex hdel hdropnd
    refine ⟨?_, ?_, ?_⟩
    · unfold BackupManager.cleanup_count
      simp only [if_neg hnle, hDL]
    · unfold BackupManager.cleanup_old_backups
      simp only [if_neg hnle, hDL]
    · -- the catalog of the trimmed state is the newest max_backups records
      have hcomm : (fs.backups.filter (fun d => decide (d.name ∉
              (((BackupManager.list_backups bm fs).drop bm.max_backups).map
                (fun b => b.backup_path))))).filter
            (fun d => strStartsWith d.name "dmpool_backup_")
          = (fs.backups.filter (fun d => strStartsWith d.name "dmpool_backup_")).filter
              (fun d => decide (d.name ∉
                (((BackupManager.list_backups bm fs).drop bm.max_backups).map
                  (fun b => b.backup_path)))) := by
        simp only [List.filter_filter]
        exact List.filter_congr (fun d _ => Bool.and_comm _ _)
      have hcompat : ∀ d ∈ fs.backups.filter (fun d => strStartsWith d.name "dmpool_backup_"),
          ∀ m, BackupManager.load_metadata bm d = .ok m →
            (decide (m.backup_path ∉
              (((BackupManager.list_backups bm fs).drop bm.max_backups).map
                (fun b => b.backup_path))) : Bool)
            = decide (d.name ∉
              (((BackupManager.list_backups bm fs).drop bm.max_backups).map
                (fun b => b.backup_path))) := by
        intro d hd m hm
        rw [hwfF d hd m hm]
      have hstep := filterMap_filter_path bm
        (fun d => decide (d.name ∉
          (((BackupManager.list_backups bm fs).drop bm.max_backups).map
            (fun b => b.backup_path))))
        (fun m => decide (m.backup_path ∉
          (((BackupManager.list_backups bm fs).drop bm.max_backups).map
            (fun b => b.backup_path))))
        (fs.backups.filter (fun d => strStartsWith d.name "dmpool_backup_")) hcompat
      have hLfilter : (BackupManager.list_backups bm fs).filter
            (fun m => decide (m.backup_path ∉
              (((BackupManager.list_backups bm fs).drop bm.max_backups).map
                (fun b => b.backup_path))))
          = (BackupManager.list_backups bm fs).take bm.max_backups := by
        have hsplit : (BackupManager.list_backups bm fs)
            = (BackupManager.list_backups bm fs).take bm.max_backups
              ++ (BackupManager.list_backups bm fs).drop bm.max_backups :=
          (List.take_append_drop _ _).symm
        have hnodapp : (((BackupManager.list_backups bm fs).take bm.max_backups).map
              (fun b => b.backup_path)
            ++ (((BackupManager.list_backups bm fs).drop bm.max_backups)).map
              (fun b => b.backup_path)).Nodup := by
          rw [← List.map_append, List.take_append_drop]
          exact hLpaths
        have hdisj := (List.nodup_append.mp hnodapp).2.2
        have h1 : ((BackupManager.list_backups bm fs).take bm.max_backups).filter
              (fun m => decide (m.backup_path ∉
                (((BackupManager.list_backups bm fs).drop bm.max_backups).map
                  (fun b => b.backup_path))))
            = (BackupManager.list_backups bm fs).take bm.max_backups := by
          rw [List.filter_eq_self]
          intro b hb
          simp only [decide_eq_true_eq]
          intro hmem
          exact hdisj (List.mem_map_of_mem _ hb) hmem
        have h2 : ((BackupManager.list_backups bm fs).drop bm.max_backups).filter
              (fun m => decide (m.backup_path ∉
                (((BackupManager.list_backups bm fs).drop bm.max_backups).map
                  (fun b => b.backup_path))))
            = [] := by
          rw [List.filter_eq_nil_iff]
          intro b hb
          simp only [decide_eq_true_eq, Decidable.not_not]
          exact List.mem_map_of_mem _ hb
        have hsplitf := congrArg (List.filter (fun m => decide (m.backup_path ∉
          (((BackupManager.list_backups bm fs).drop bm.max_backups).map
            (fun b => b.backup_path))))) hsplit
        rw [List.filter_append, h1, h2, List.append_nil] at hsplitf
        exact hsplitf
      have hXsorted : (((fs.backups.filter (fun d => strStartsWith d.name "dmpool_backup_")).filterMap
            (fun d => (BackupManager.load_metadata bm d).toOption)).filter
              (fun m => decide (m.backup_path ∉
                (((BackupManager.list_backups bm fs).drop bm.max_backups).map
                  (fun b => b.backup_path)))) |>.insertionSort (fun a b => b.created_at ≤ a.created_at)).Pairwise
          (fun a b => b.created_at ≤ a.created_at) :=
        List.sorted_insertionSort _ _
      have htakesorted : ((BackupManager.list_backups bm fs).take bm.max_backups).Pairwise
          (fun a b => b.created_at ≤ a.created_at) :=
        (list_backups_sorted bm fs).sublist (List.take_sublist _ _)
      have hMperm : (((fs.backups.filter (fun d => strStartsWith d.name "dmpool_backup_")).filterMap
            (fun d => (BackupManager.load_metadata bm d).toOption)).filter
              (fun m => decide (m.backup_path ∉
                (((BackupManager.list_backups bm fs).drop bm.max_backups).map
                  (fun b => b.backup_path)))) |>.insertionSort (fun a b => b.created_at ≤ a.created_at)).Perm
          ((BackupManager.list_backups bm fs).take bm.max_backups) := by
        refine (List.perm_insertionSort _ _).trans ?_
        rw [← hLfilter]
        exact (hperm.symm).filter _
      have htakend : (((BackupManager.list_backups bm fs).take bm.max_backups).map
          (fun b => b.created_at)).Nodup := by
        have hsub : ((((BackupManager.list_backups bm fs).take bm.max_backups)).map
              (fun b => b.created_at)).Sublist
            ((BackupManager.list_backups bm fs).map (fun b => b.created_at)) :=
          (List.take_sublist _ _).map _
        exact hsub.nodup hstrict
      have hXnd : ((((fs.backups.filter (fun d => strStartsWith d.name "dmpool_backup_")).filterMap
            (fun d => (BackupManager.load_metadata bm d).toOption)).filter
              (fun m => decide (m.backup_path ∉
                (((BackupManager.list_backups bm fs).drop bm.max_backups).map
                  (fun b => b.backup_path)))) |>.insertionSort (fun a b => b.created_at ≤ a.created_at)).map
          (fun b => b.created_at)).Nodup :=
        ((hMperm.map _).nodup_iff).mpr htakend
      have heq := sorted_desc_unique _ _ hMperm
        (pairwise_strict_of_sorted_nodup _ hXsorted hXnd)
        (pairwise_strict_of_sorted_nodup _ htakesorted htakend)
      show (((fs.backups.filter (fun d => decide (d.name ∉
              (((BackupManager.list_backups bm fs).drop bm.max_backups).map
                (fun b => b.backup_path))))).filter
            (fun d => strStartsWith d.name "dmpool_backup_")).filterMap
          (fun d => (BackupManager.load_metadata bm d).toOption)).insertionSort
          (fun a b => b.created_at ≤ a.created_at)
        = (BackupManager.list_backups bm fs).take bm.max_backups
      rw [hcomm, hstep]
      exact heq

theorem C1_cleanup_retention_witness :
    ((BackupManager.cleanup_count bmK2 fsThree).1 = .ok 1 ∧
      BackupManager.list_backups bmK2 (BackupManager.cleanup_count bmK2 fsThree).2
        = (BackupManager.list_backups bmK2 fsThree).take 2) ∧
    BackupManager.cleanup_count bmA fsThree = (.ok 0, fsThree) := by
  have h := C1_cleanup_retention bmK2 fsThree (by decide) (by decide) (by decide) (by decide)
  have h2 := (h.2 (by decide))
  have hA := C1_cleanup_retention bmA fsThree (by decide) (by decide) (by decide) (by decide)
  refine ⟨⟨?_, ?_⟩, (hA.1 (by decide)).1⟩
  · rw [h2.1]
    decide
  · rw [h2.1]
    exact h2.2.2

/-! Helper lemmas: operations on a freshly created directory. -/

theorem map_upd_append (l : List FsDir) (n : String) (f : List FsFile → List FsFile)
    (fl : List FsFile) (t : Nat) (h : ∀ d ∈ l, d.name ≠ n) :
    (l ++ [(⟨n, fl, t⟩ : FsDir)]).map
        (fun d => if d.name == n then (⟨d.name, f d.files, d.mtime⟩ : FsDir) else d)
      = l ++ [(⟨n, f fl, t⟩ : FsDir)] := by
  rw [List.map_append]
  congr 1
  · have hid : ∀ d ∈ l,
        (if d.name == n then (⟨d.name, f d.files, d.mtime⟩ : FsDir) else d) = id d := by
      intro d hd
      have hne : (d.name == n) = false := by simpa using h d hd
      simp [hne]
    rw [List.map_congr_left hid, List.map_id]
  · simp

theorem updateDir_append_last (lv : Option (List FsFile)) (u : List String)
    (l : List FsDir) (n : String) (fl : List FsFile) (t : Nat)
    (f : List FsFile → List FsFile) (h : ∀ d ∈ l, d.name ≠ n) :
    updateDir ⟨lv, l ++ [(⟨n, fl, t⟩ : FsDir)], u⟩ n f = ⟨lv, l ++ [(⟨n, f fl, t⟩ : FsDir)], u⟩ := by
  unfold updateDir
  rw [map_upd_append l n f fl t h]

theorem getDir_mk_last (lv : Option (List FsFile)) (u : List String)
    (l : List FsDir) (dd : FsDir) (h : ∀ d ∈ l, d.name ≠ dd.name) :
    getDir ⟨lv, l ++ [dd], u⟩ dd.name = dd := by
  unfold getDir
  rw [List.find?_append]
  have h1 : l.find? (fun d => d.name == dd.name) = none := by
    rw [List.find?_eq_none]
    intro x hx
    simpa using h x hx
  simp [h1]

theorem getDir_mk_append_ne (lv : Option (List FsFile)) (u : List String)
    (l : List FsDir) (dd : FsDir) (n : String) (h : n ≠ dd.name) :
    getDir ⟨lv, l ++ [dd], u⟩ n = getDir ⟨lv, l, u⟩ n := by
  unfold getDir
  rw [List.find?_append]
  have h1 : [dd].find? (fun d => d.name == n) = none := by
    rw [List.find?_eq_none]
    intro x hx
    simp at hx
    subst hx
    simpa using fun he => h he.symm
  rw [h1]
  cases l.find? (fun d => d.name == n) <;> rfl

theorem dirExists_mk_append (lv : Option (List FsFile)) (u : List String)
    (l : List FsDir) (dd : FsDir) (n : String) :
    dirExists ⟨lv, l ++ [dd], u⟩ n = (dirExists ⟨lv, l, u⟩ n || (dd.name == n)) := by
  unfold dirExists
  rw [List.any_append]
  simp

theorem cleanup_state (bm : BackupManager) (fs : FileSys) :
    (BackupManager.cleanup_old_backups bm fs).2.live = fs.live ∧
    (BackupManager.cleanup_old_backups bm fs).2.undeletable = fs.undeletable ∧
    (BackupManager.cleanup_old_backups bm fs).2.backups.Sublist fs.backups := by
  by_cases hc : (BackupManager.list_backups bm fs).length ≤ bm.max_backups
  · unfold BackupManager.cleanup_old_backups
    simp only [if_pos hc]
    exact ⟨trivial, trivial, List.Sublist.refl _⟩
  · unfold BackupManager.cleanup_old_backups
    simp only [if_neg hc]
    exact deleteLoop_state _ _

/-- BackupManager::backup unfolded on a present source and a fresh
destination directory: the destination receives the live files and then
the sidecar recording mkMeta, and the call ends in the retention pass on
that written state, whose outcome it returns. -/
theorem backup_eq (bm : BackupManager) (now : Nat) (lf : List FsFile)
    (bks : List FsDir) (und : List String)
    (hfresh : dirExists ⟨some lf, bks, und⟩ ("dmpool_backup_" ++ fmtTimestamp now) = false)
    (hnodupL : filesNodup lf) :
    BackupManager.backup bm now ⟨some lf, bks, und⟩ =
      (match BackupManager.cleanup_old_backups bm
          ⟨some lf, bks ++ [(⟨"dmpool_backup_" ++ fmtTimestamp now,
              putFile lf ⟨"metadata.json", FContent.meta (mkMeta bm now lf)⟩, now⟩ : FsDir)], und⟩ with
        | (.error e, fs4) => (.error e, fs4)
        | (.ok _, fs4) => (.ok (mkMeta bm now lf), fs4)) := by
  have hne : ∀ d ∈ bks, d.name ≠ ("dmpool_backup_" ++ fmtTimestamp now) := by
    intro d hd he
    unfold dirExists at hfresh
    rw [List.any_eq_false] at hfresh
    exact hfresh d hd (by simpa using he)
  have e1 : createDirAll ⟨some lf, bks, und⟩ ("dmpool_backup_" ++ fmtTimestamp now) now
      = ⟨some lf, bks ++ [(⟨"dmpool_backup_" ++ fmtTimestamp now, [], now⟩ : FsDir)], und⟩ := by
    unfold createDirAll
    rw [hfresh]
    simp
  have e2 : BackupManager.copy_database_files
      ⟨some lf, bks ++ [(⟨"dmpool_backup_" ++ fmtTimestamp now, [], now⟩ : FsDir)], und⟩
      ("dmpool_backup_" ++ fmtTimestamp now)
      = .ok ⟨some lf, bks ++ [(⟨"dmpool_backup_" ++ fmtTimestamp now, lf, now⟩ : FsDir)], und⟩ := by
    unfold BackupManager.copy_database_files
    dsimp only
    rw [updateDir_append_last (some lf) und bks ("dmpool_backup_" ++ fmtTimestamp now)
      [] now _ hne]
    rw [copyFiles_nil lf hnodupL]
  have e3 : getDir
      ⟨some lf, bks ++ [(⟨"dmpool_backup_" ++ fmtTimestamp now, lf, now⟩ : FsDir)], und⟩
      ("dmpool_backup_" ++ fmtTimestamp now)
      = ⟨"dmpool_backup_" ++ fmtTimestamp now, lf, now⟩ :=
    getDir_mk_last (some lf) und bks _ hne
  have e5 : BackupManager.save_metadata
      ⟨some lf, bks ++ [(⟨"dmpool_backup_" ++ fmtTimestamp now, lf, now⟩ : FsDir)], und⟩
      (mkMeta bm now lf)
      = ⟨some lf, bks ++ [(⟨"dmpool_backup_" ++ fmtTimestamp now,
          putFile lf ⟨"metadata.json", FContent.meta (mkMeta bm now lf)⟩, now⟩ : FsDir)], und⟩ := by
    unfold BackupManager.save_metadata mkMeta
    dsimp only
    exact updateDir_append_last (some lf) und bks ("dmpool_backup_" ++ fmtTimestamp now)
      lf now _ hne
  have efold : BackupMetadata.mk ("dmpool_backup_" ++ fmtTimestamp now) now
      bm.store_path ("dmpool_backup_" ++ fmtTimestamp now)
      (BackupManager.calculate_size lf) cargoPkgVersion = mkMeta bm now lf := rfl
  unfold BackupManager.backup
  simp only [e1, e2, e3]
  simp only [efold]
  simp only [e5]

/-- C9: the size_bytes recorded by a successful backup is the size of the
copied live files, measured before the sidecar is written and hence
excluding it, while the directory that cleanup, verify and legacy
synthesis later see holds those files plus the sidecar, whose
recomputed total strictly exceeds the recorded value. -/
theorem C9_recorded_size_excludes_sidecar (bm : BackupManager) (now : Nat)
    (lf : List FsFile) (bks : List FsDir) (und : List String)
    (hfresh : dirExists ⟨some lf, bks, und⟩ ("dmpool_backup_" ++ fmtTimestamp now) = false)
    (hnodupL : filesNodup lf)
    (hnometa : ∀ g ∈ lf, g.name ≠ "metadata.json") :
    (∀ m fsr, BackupManager.backup bm now ⟨some lf, bks, und⟩ = (.ok m, fsr) →
        m.size_bytes = BackupManager.calculate_size lf) ∧
    putFile lf ⟨"metadata.json", .meta (mkMeta bm now lf)⟩
      = lf ++ [⟨"metadata.json", .meta (mkMeta bm now lf)⟩] ∧
    BackupManager.calculate_size (lf ++ [⟨"metadata.json", .meta (mkMeta bm now lf)⟩])
      = (mkMeta bm now lf).size_bytes + metadataJsonLen (mkMeta bm now lf) ∧
    (mkMeta bm now lf).size_bytes
      < BackupManager.calculate_size (lf ++ [⟨"metadata.json", .meta (mkMeta bm now lf)⟩]) := by
  have h2 : putFile lf ⟨"metadata.json", .meta (mkMeta bm now lf)⟩
      = lf ++ [⟨"metadata.json", .meta (mkMeta bm now lf)⟩] :=
    putFile_absent lf _ (fun g hg => hnometa g hg)
  have h3 : BackupManager.calculate_size (lf ++ [⟨"metadata.json", .meta (mkMeta bm now lf)⟩])
      = (mkMeta bm now lf).size_bytes + metadataJsonLen (mkMeta bm now lf) := by
    rw [calculate_size_append]
    rfl
  refine ⟨?_, h2, h3, ?_⟩
  · intro m fsr h
    rw [backup_eq bm now lf bks und hfresh hnodupL] at h
    rcases hcl : BackupManager.cleanup_old_backups bm
        ⟨some lf, bks ++ [⟨"dmpool_backup_" ++ fmtTimestamp now,
          putFile lf ⟨"metadata.json", FContent.meta (mkMeta bm now lf)⟩, now⟩], und⟩
      with ⟨res, fs4⟩
    rw [hcl] at h
    cases res with
    | error e => simp at h
    | ok u =>
      simp only [Prod.mk.injEq, Except.ok.injEq] at h
      rw [← h.1]
      rfl
  · rw [h3]
    have := metadataJsonLen_pos (mkMeta bm now lf)
    omega

/-- C10: when the source path is missing, backup fails with the
source-missing error but leaves behind the freshly created empty
destination directory, and the catalog thereafter includes a synthesized
legacy record for it (version unknown, size 0, created_at the directory
mtime). -/
theorem C10_failed_backup_leaves_directory (bm : BackupManager) (now : Nat)
    (bks : List FsDir) (und : List String)
    (hfresh : dirExists ⟨none, bks, und⟩ ("dmpool_backup_" ++ fmtTimestamp now) = false) :
    BackupManager.backup bm now ⟨none, bks, und⟩ =
      (.error .sourceMissing,
       ⟨none, bks ++ [⟨"dmpool_backup_" ++ fmtTimestamp now, [], now⟩], und⟩) ∧
    (⟨"dmpool_backup_" ++ fmtTimestamp now, now, bm.store_path,
        "dmpool_backup_" ++ fmtTimestamp now, 0, "unknown"⟩ : BackupMetadata)
      ∈ BackupManager.list_backups bm
          ⟨none, bks ++ [⟨"dmpool_backup_" ++ fmtTimestamp now, [], now⟩], und⟩ := by
  have e1 : createDirAll ⟨none, bks, und⟩ ("dmpool_backup_" ++ fmtTimestamp now) now
      = ⟨none, bks ++ [⟨"dmpool_backup_" ++ fmtTimestamp now, [], now⟩], und⟩ := by
    unfold createDirAll
    rw [hfresh]
    simp
  constructor
  · unfold BackupManager.backup
    simp only [e1]
    rfl
  · rw [mem_list_backups]
    exact ⟨⟨"dmpool_backup_" ++ fmtTimestamp now, [], now⟩,
      List.mem_append.2 (Or.inr (by simp)), strStartsWith_append _ _, rfl⟩

theorem C10_witness :
    BackupManager.backup bmA 11 fsNoSrc =
      (.error .sourceMissing,
       ⟨none, [⟨"dmpool_backup_" ++ fmtTimestamp 11, [], 11⟩], []⟩) ∧
    (⟨"dmpool_backup_" ++ fmtTimestamp 11, 11, "/data/store",
        "dmpool_backup_" ++ fmtTimestamp 11, 0, "unknown"⟩ : BackupMetadata)
      ∈ BackupManager.list_backups bmA
          ⟨none, [⟨"dmpool_backup_" ++ fmtTimestamp 11, [], 11⟩], []⟩ :=
  C10_failed_backup_leaves_directory bmA 11 [] [] (by decide)

/-- C2: the code contradicts the claim.  Immediately after a successful
create_backup, verify on the produced name returns Ok(false), because the
size recomputation counts the metadata.json sidecar that was written after
size_bytes was measured.  Evaluated at a concrete store of two files. -/
theorem C2_verify_false_after_backup :
    (BackupManager.backup bmA 5 fsA).1
      = .ok ⟨"dmpool_backup_" ++ fmtTimestamp 5, 5, "/data/store",
          "dmpool_backup_" ++ fmtTimestamp 5, 6, "0.1.0"⟩ ∧
    BackupManager.verify bmA ("dmpool_backup_" ++ fmtTimestamp 5)
      (BackupManager.backup bmA 5 fsA).2 = .ok false := by
  decide

/-- C3 as stated is false on the code: a deletion error of the retention
pass triggered at the end of backup makes the whole backup call fail,
evaluated here at a store with one undeletable old backup and retention
count 1. -/
theorem C3_counterexample :
    (BackupManager.backup bmK1 5 fsStuck).1
      = .error (.removeFailed ("dmpool_backup_" ++ fmtTimestamp 1)) := by
  decide

/-- C3 amended: the error of the retention pass triggered at the end of
create_backup is propagated: the backup call returns that same error (the
snapshot directory and its sidecar, already written, remain). -/
theorem C3_amended_propagates (bm : BackupManager) (now : Nat) (lf : List FsFile)
    (bks : List FsDir) (und : List String) (e : BackupError) (fs4 : FileSys)
    (hfresh : dirExists ⟨some lf, bks, und⟩ ("dmpool_backup_" ++ fmtTimestamp now) = false)
    (hnodupL : filesNodup lf)
    (hclean : BackupManager.cleanup_old_backups bm
        ⟨some lf, bks ++ [⟨"dmpool_backup_" ++ fmtTimestamp now,
          putFile lf ⟨"metadata.json", FContent.meta (mkMeta bm now lf)⟩, now⟩], und⟩
      = (.error e, fs4)) :
    BackupManager.backup bm now ⟨some lf, bks, und⟩ = (.error e, fs4) := by
  rw [backup_eq bm now lf bks und hfresh hnodupL, hclean]

theorem C3_amended_witness :
    BackupManager.backup bmK1 5 fsStuck =
      (.error (.removeFailed ("dmpool_backup_" ++ fmtTimestamp 1)),
       ⟨some liveA, [mkBackupDir 1, ⟨"dmpool_backup_" ++ fmtTimestamp 5,
          putFile liveA ⟨"metadata.json", FContent.meta (mkMeta bmK1 5 liveA)⟩, 5⟩],
        ["dmpool_backup_" ++ fmtTimestamp 1]⟩) :=
  C3_amended_propagates bmK1 5 liveA [mkBackupDir 1] ["dmpool_backup_" ++ fmtTimestamp 1]
    (.removeFailed ("dmpool_backup_" ++ fmtTimestamp 1))
    ⟨some liveA, [mkBackupDir 1, ⟨"dmpool_backup_" ++ fmtTimestamp 5,
        putFile liveA ⟨"metadata.json", FContent.meta (mkMeta bmK1 5 liveA)⟩, 5⟩],
      ["dmpool_backup_" ++ fmtTimestamp 1]⟩
    (by decide) (by decide) (by decide)

theorem C9_witness :
    (mkMeta bmA 5 liveA).size_bytes
      < BackupManager.calculate_size
          (liveA ++ [⟨"metadata.json", .meta (mkMeta bmA 5 liveA)⟩]) :=
  (C9_recorded_size_excludes_sidecar bmA 5 liveA [] []
    (by decide) (by decide) (by decide)).2.2.2

/-- BackupManager::restore unfolded on a state that passes validation:
the pre_restore_ safety snapshot receives a copy of the live files first,
and only then is the live directory replaced by the backup's files. -/
theorem restore_eq (bm : BackupManager) (nm : String) (now : Nat) (lf : List FsFile)
    (bks : List FsDir) (und : List String) (m : BackupMetadata)
    (hex : dirExists ⟨some lf, bks, und⟩ nm = true)
    (hm : BackupManager.load_metadata bm (getDir ⟨some lf, bks, und⟩ nm) = .ok m)
    (hpath : m.backup_path = nm)
    (hcur : (getFile (getDir ⟨some lf, bks, und⟩ nm).files "CURRENT").isSome = true)
    (hpre : dirExists ⟨some lf, bks, und⟩ ("pre_restore_" ++ fmtTimestamp now) = false) :
    BackupManager.restore bm nm now ⟨some lf, bks, und⟩ =
      (.ok (), ⟨some (copyFiles (getDir ⟨some lf, bks, und⟩ nm).files []),
        bks ++ [⟨"pre_restore_" ++ fmtTimestamp now, copyFiles lf [], now⟩], und⟩) := by
  have hnepre : ∀ d ∈ bks, d.name ≠ ("pre_restore_" ++ fmtTimestamp now) := by
    intro d hd he
    unfold dirExists at hpre
    rw [List.any_eq_false] at hpre
    exact hpre d hd (by simpa using he)
  have hnmpre : nm ≠ ("pre_restore_" ++ fmtTimestamp now) := by
    intro he
    rw [he] at hex
    rw [hex] at hpre
    simp at hpre
  obtain ⟨c, hc⟩ := Option.isSome_iff_exists.mp hcur
  have v1 : BackupManager.validate_backup ⟨some lf, bks, und⟩ m = .ok () := by
    unfold BackupManager.validate_backup
    rw [hpath, hc]
    simp [hex]
  have e1 : createDirAll ⟨some lf, bks, und⟩ ("pre_restore_" ++ fmtTimestamp now) now
      = ⟨some lf, bks ++ [(⟨"pre_restore_" ++ fmtTimestamp now, [], now⟩ : FsDir)], und⟩ := by
    unfold createDirAll
    rw [hpre]
    simp
  have e2 : BackupManager.copy_database_files
      ⟨some lf, bks ++ [(⟨"pre_restore_" ++ fmtTimestamp now, [], now⟩ : FsDir)], und⟩
      ("pre_restore_" ++ fmtTimestamp now)
      = .ok ⟨some lf, bks ++ [(⟨"pre_restore_" ++ fmtTimestamp now,
          copyFiles lf [], now⟩ : FsDir)], und⟩ := by
    unfold BackupManager.copy_database_files
    dsimp only
    rw [updateDir_append_last (some lf) und bks ("pre_restore_" ++ fmtTimestamp now)
      [] now _ hnepre]
  have e3 : BackupManager.restore_database_files
      ⟨some lf, bks ++ [(⟨"pre_restore_" ++ fmtTimestamp now,
        copyFiles lf [], now⟩ : FsDir)], und⟩ nm
      = ⟨some (copyFiles (getDir ⟨some lf, bks, und⟩ nm).files []),
        bks ++ [(⟨"pre_restore_" ++ fmtTimestamp now, copyFiles lf [], now⟩ : FsDir)], und⟩ := by
    unfold BackupManager.restore_database_files
    rw [getDir_mk_append_ne (some lf) und bks _ nm hnmpre]
  unfold BackupManager.restore
  rw [if_neg (by simp [hex])]
  simp only [hm, v1, e1, e2, e3]

/-- C4: when the target directory exists and its record loads but the
CURRENT sentinel is absent, restore fails with the invalid-backup error
and the filesystem is completely unchanged (no pre-restore snapshot, no
file of the live path touched); and no size verification guards the
restore path: with the sentinel present, restore proceeds and succeeds
even when the recorded size_bytes disagrees with a recomputation. -/
theorem C4_restore_validation (bm : BackupManager) (nm : String) (now : Nat) (fs : FileSys)
    (m : BackupMetadata)
    (hex : dirExists fs nm = true)
    (hm : BackupManager.load_metadata bm (getDir fs nm) = .ok m)
    (hpath : m.backup_path = nm) :
    ((getFile (getDir fs nm).files "CURRENT").isNone = true →
      BackupManager.restore bm nm now fs = (.error .missingCurrent, fs)) ∧
    (∀ lf, fs.live = some lf →
      (getFile (getDir fs nm).files "CURRENT").isSome = true →
      BackupManager.calculate_size (getDir fs nm).files ≠ m.size_bytes →
      dirExists fs ("pre_restore_" ++ fmtTimestamp now) = false →
      (BackupManager.restore bm nm now fs).1 = .ok ()) := by
  constructor
  · intro hnone
    have v1 : BackupManager.validate_backup fs m = .error .missingCurrent := by
      unfold BackupManager.validate_backup
      rw [hpath, hnone]
      simp [hex]
    unfold BackupManager.restore
    rw [if_neg (by simp [hex])]
    simp only [hm, v1]
  · rcases fs with ⟨lv, bks, und⟩
    intro lf hlf hcur _ hpre
    cases hlf
    rw [restore_eq bm nm now lf bks und m hex hm hpath hcur hpre]

theorem C4_witness :
    BackupManager.restore bmA "dmpool_backup_8" 9 fsNoCur = (.error .missingCurrent, fsNoCur) ∧
    (BackupManager.restore bmA "dmpool_backup_8" 9 fsBadSize).1 = .ok () := by
  constructor
  · exact (C4_restore_validation bmA "dmpool_backup_8" 9 fsNoCur
      ⟨"dmpool_backup_8", 8, "/data/store", "dmpool_backup_8", 2, "unknown"⟩
      (by decide) (by decide) (by decide)).1 (by decide)
  · exact (C4_restore_validation bmA "dmpool_backup_8" 9 fsBadSize
      ⟨"dmpool_backup_8", 8, "/data/store", "dmpool_backup_8", 9999, "0.1.0"⟩
      (by decide) (by decide) (by decide)).2 liveA rfl (by decide) (by decide) (by decide)

/-- C5: a restore that passes validation first writes the pre_restore_
safety snapshot holding exactly the pre-restore live files, and only then
replaces the live data; and the retention pass never deletes a directory
whose name does not carry the dmpool_backup_ prefix (under sidecars that
name their own directory), the pre_restore_ prefix in particular. -/
theorem C5_pre_restore_snapshot (bm : BackupManager) (nm : String) (now : Nat)
    (lf : List FsFile) (bks : List FsDir) (und : List String) (m : BackupMetadata)
    (hex : dirExists ⟨some lf, bks, und⟩ nm = true)
    (hm : BackupManager.load_metadata bm (getDir ⟨some lf, bks, und⟩ nm) = .ok m)
    (hpath : m.backup_path = nm)
    (hcur : (getFile (getDir ⟨some lf, bks, und⟩ nm).files "CURRENT").isSome = true)
    (hpre : dirExists ⟨some lf, bks, und⟩ ("pre_restore_" ++ fmtTimestamp now) = false)
    (hnodupL : filesNodup lf) :
    (BackupManager.restore bm nm now ⟨some lf, bks, und⟩ =
      (.ok (), ⟨some (copyFiles (getDir ⟨some lf, bks, und⟩ nm).files []),
        bks ++ [⟨"pre_restore_" ++ fmtTimestamp now, lf, now⟩], und⟩)) ∧
    strStartsWith ("pre_restore_" ++ fmtTimestamp now) "dmpool_backup_" = false ∧
    (∀ (bm2 : BackupManager) (fs2 : FileSys) (d : FsDir),
      d ∈ fs2.backups →
      strStartsWith d.name "dmpool_backup_" = false →
      pathsOwn bm2 fs2 = true →
      d ∈ (BackupManager.cleanup_old_backups bm2 fs2).2.backups) := by
  refine ⟨?_, strStartsWith_pre _, ?_⟩
  · rw [restore_eq bm nm now lf bks und m hex hm hpath hcur hpre,
      copyFiles_nil lf hnodupL]
  · intro bm2 fs2 d hd hnopre hwf2
    by_cases hc : (BackupManager.list_backups bm2 fs2).length ≤ bm2.max_backups
    · unfold BackupManager.cleanup_old_backups
      simp only [if_pos hc]
      exact hd
    · unfold BackupManager.cleanup_old_backups
      simp only [if_neg hc]
      apply deleteLoop_keeps _ _ _ hd
      intro hmem
      rw [List.mem_map] at hmem
      obtain ⟨b, hb, he⟩ := hmem
      have hbmem : b ∈ BackupManager.list_backups bm2 fs2 := List.mem_of_mem_drop hb
      rw [mem_list_backups] at hbmem
      obtain ⟨d2, hd2, hpfx2, hload2⟩ := hbmem
      have := pathsOwn_spec hwf2 d2 hd2 b hload2
      rw [this] at he
      rw [he] at hpfx2
      rw [hpfx2] at hnopre
      simp at hnopre

theorem C5_witness :
    (BackupManager.restore bmA ("dmpool_backup_" ++ fmtTimestamp 1) 9
        ⟨some liveA, [mkBackupDir 1], []⟩).1 = .ok () ∧
    (⟨"pre_restore_" ++ fmtTimestamp 9, [], 9⟩ : FsDir) ∈
      (BackupManager.cleanup_old_backups bmK1
        ⟨some [], [⟨"pre_restore_" ++ fmtTimestamp 9, [], 9⟩,
          mkBackupDir 1, mkBackupDir 2], []⟩).2.backups := by
  have h := C5_pre_restore_snapshot bmA ("dmpool_backup_" ++ fmtTimestamp 1) 9 liveA
    [mkBackupDir 1] []
    ⟨"dmpool_backup_" ++ fmtTimestamp 1, 1, "/data/store",
      "dmpool_backup_" ++ fmtTimestamp 1, 1, "0.1.0"⟩
    (by decide) (by decide) (by decide) (by decide) (by decide) (by decide)
  refine ⟨?_, h.2.2 bmK1 _ _ (by decide) (by decide) (by decide)⟩
  rw [h.1]

/-- C7: the catalog is sorted descending by created_at; a record appears
in it exactly when some dmpool_backup_-prefixed directory of the backups
root loads to it, so an entry whose metadata fails to load is skipped
without affecting the rest, and a directory without the recognized prefix
contributes nothing; an empty backups root yields the empty catalog, not
an error. -/
theorem C7_list_backups (bm : BackupManager) (fs : FileSys) :
    (BackupManager.list_backups bm fs).Pairwise (fun a b => b.created_at ≤ a.created_at) ∧
    (∀ m : BackupMetadata, m ∈ BackupManager.list_backups bm fs ↔
      ∃ d ∈ fs.backups, strStartsWith d.name "dmpool_backup_" = true ∧
        BackupManager.load_metadata bm d = .ok m) ∧
    (fs.backups = [] → BackupManager.list_backups bm fs = []) := by
  refine ⟨list_backups_sorted bm fs, fun m => mem_list_backups bm fs m, ?_⟩
  intro he
  unfold BackupManager.list_backups
  rw [he]
  rfl

theorem deleteLoop_fails : ∀ (good : List BackupMetadata) (bad : BackupMetadata)
    (rest : List BackupMetadata) (fs : FileSys),
    (∀ b ∈ good, dirExists fs b.backup_path = true) →
    (∀ b ∈ good, b.backup_path ∉ fs.undeletable) →
    ((good.map (fun b => b.backup_path)).Nodup) →
    bad.backup_path ∈ fs.undeletable →
    deleteLoop (good ++ bad :: rest) fs =
      (.error (.removeFailed bad.backup_path),
       { fs with backups := fs.backups.filter (fun d =>
          decide (d.name ∉ good.map (fun b => b.backup_path))) })
  | [], bad, rest, fs, _, _, _, hbad => by
    simp only [List.nil_append, List.map_nil, List.not_mem_nil, not_false_iff, decide_True,
      List.filter_true]
    unfold deleteLoop
    rw [show removeDirAll fs bad.backup_path = .error (.removeFailed bad.backup_path) from by
      unfold removeDirAll
      rw [if_pos hbad]]
  | g :: good, bad, rest, fs, hex, hdel, hnd, hbad => by
    have hndc : g.backup_path ∉ good.map (fun x => x.backup_path) ∧
        (good.map (fun x => x.backup_path)).Nodup := by
      have := hnd; rw [List.map_cons, List.nodup_cons] at this; exact this
    have hstep : deleteLoop ((g :: good) ++ bad :: rest) fs = deleteLoop (good ++ bad :: rest)
        { fs with backups := fs.backups.filter (fun d => ¬ d.name == g.backup_path) } := by
      conv_lhs => rw [List.cons_append, deleteLoop]
      rw [removeDirAll_ok fs g.backup_path (hdel g (by simp)) (hex g (by simp))]
    have hex1 : ∀ x ∈ good, dirExists
        { fs with backups := fs.backups.filter (fun d => ¬ d.name == g.backup_path) }
        x.backup_path = true := by
      intro x hx
      have hdix := hex x (by simp [hx])
      rw [dirExists_iff] at hdix ⊢
      obtain ⟨d, hd, he⟩ := hdix
      refine ⟨d, ?_, he⟩
      simp only [List.mem_filter]
      refine ⟨hd, ?_⟩
      have hne : d.name ≠ g.backup_path := by
        rw [he]
        intro hcontra
        exact hndc.1 (by rw [← hcontra]; exact List.mem_map_of_mem _ hx)
      simpa using hne
    have hdel1 : ∀ x ∈ good, x.backup_path ∉
        ({ fs with backups := fs.backups.filter (fun d => ¬ d.name == g.backup_path) }
          : FileSys).undeletable := by
      intro x hx; exact hdel x (by simp [hx])
    rw [hstep, deleteLoop_fails good bad rest _ hex1 hdel1 hndc.2 hbad]
    have hback : (fs.backups.filter (fun d => ¬ d.name == g.backup_path)).filter
          (fun d => decide (d.name ∉ good.map (fun x => x.backup_path)))
        = fs.backups.filter
          (fun d => decide (d.name ∉ (g :: good).map (fun x => x.backup_path))) := by
      simp only [List.filter_filter]
      apply List.filter_congr
      intro d _
      by_cases h1 : d.name ∈ good.map (fun x => x.backup_path) <;>
        by_cases h2 : d.name = g.backup_path <;>
          simp [h1, h2]
    simp only [hback]

/-- C8: within one cleanup invocation that must delete several excess
backups, the first deletion failure aborts the remaining deletions and is
returned to the caller: the earlier (newer) excess entries up to the
failure are removed, while the failed entry and every later-indexed
(older) excess entry remain on disk. -/
theorem C8_cleanup_failfast (bm : BackupManager) (fs : FileSys)
    (good : List BackupMetadata) (bad : BackupMetadata) (rest : List BackupMetadata)
    (hnd : dirsNodup fs)
    (hwf : pathsOwn bm fs = true)
    (hlen : ¬ (BackupManager.list_backups bm fs).length ≤ bm.max_backups)
    (hsplit : (BackupManager.list_backups bm fs).drop bm.max_backups = good ++ bad :: rest)
    (hgood : ∀ b ∈ good, b.backup_path ∉ fs.undeletable)
    (hbad : bad.backup_path ∈ fs.undeletable) :
    BackupManager.cleanup_old_backups bm fs =
      (.error (.removeFailed bad.backup_path),
       { fs with backups := fs.backups.filter (fun d =>
          decide (d.name ∉ good.map (fun b => b.backup_path))) }) ∧
    ∀ b ∈ bad :: rest,
      dirExists (BackupManager.cleanup_old_backups bm fs).2 b.backup_path = true := by
  have hwf' := pathsOwn_spec hwf
  have hperm := list_backups_perm bm fs
  have hndn : (fs.backups.map FsDir.name).Nodup := hnd
  have hpfxnd : ((fs.backups.filter
      (fun d => strStartsWith d.name "dmpool_backup_")).map FsDir.name).Nodup := by
    have hsub : ((fs.backups.filter
          (fun d => strStartsWith d.name "dmpool_backup_")).map FsDir.name).Sublist
        (fs.backups.map FsDir.name) := (List.filter_sublist _).map _
    exact hsub.nodup hndn
  have hwfF : ∀ d ∈ fs.backups.filter (fun d => strStartsWith d.name "dmpool_backup_"),
      ∀ m, BackupManager.load_metadata bm d = .ok m → m.backup_path = d.name := by
    intro d hd
    exact hwf' d (List.mem_filter.mp hd).1
  have hLpaths : ((BackupManager.list_backups bm fs).map
      (fun b => b.backup_path)).Nodup :=
    ((hperm.map _).nodup_iff).mpr (loaded_paths_nodup bm _ hpfxnd hwfF)
  have hdropnd : ((good ++ bad :: rest).map (fun b => b.backup_path)).Nodup := by
    rw [← hsplit]
    have hsub : ((((BackupManager.list_backups bm fs).drop bm.max_backups)).map
          (fun b => b.backup_path)).Sublist
        ((BackupManager.list_backups bm fs).map (fun b => b.backup_path)) :=
      (List.drop_sublist _ _).map _
    exact hsub.nodup hLpaths
  have hmemdir : ∀ b ∈ (BackupManager.list_backups bm fs).drop bm.max_backups,
      dirExists fs b.backup_path = true := by
    intro b hb
    have hmem : b ∈ BackupManager.list_backups bm fs := List.mem_of_mem_drop hb
    rw [mem_list_backups] at hmem
    obtain ⟨d, hd, hpfx, hload⟩ := hmem
    rw [dirExists_iff]
    exact ⟨d, hd, (hwf' d hd b hload).symm⟩
  have hexg : ∀ b ∈ good, dirExists fs b.backup_path = true := by
    intro b hb
    exact hmemdir b (by rw [hsplit]; exact List.mem_append.2 (Or.inl hb))
  have hgoodnd : (good.map (fun b => b.backup_path)).Nodup := by
    have hsub : (good.map (fun b => b.backup_path)).Sublist
        ((good ++ bad :: rest).map (fun b => b.backup_path)) := by
      rw [List.map_append]
      exact List.sublist_append_left _ _
    exact hsub.nodup hdropnd
  have hDL := deleteLoop_fails good bad rest fs hexg hgood hgoodnd hbad
  have hcl : BackupManager.cleanup_old_backups bm fs =
      (.error (.removeFailed bad.backup_path),
       { fs with backups := fs.backups.filter (fun d =>
          decide (d.name ∉ good.map (fun b => b.backup_path))) }) := by
    unfold BackupManager.cleanup_old_backups
    simp only [if_neg hlen, hsplit, hDL]
  refine ⟨hcl, ?_⟩
  intro b hb
  have hbdrop : b ∈ (BackupManager.list_backups bm fs).drop bm.max_backups := by
    rw [hsplit]
    exact List.mem_append.2 (Or.inr hb)
  have hbdir := hmemdir b hbdrop
  have hnotgood : b.backup_path ∉ good.map (fun x => x.backup_path) := by
    intro hmem
    have happ : ((good ++ bad :: rest).map (fun x => x.backup_path)).Nodup := hdropnd
    rw [List.map_append, List.nodup_append] at happ
    exact happ.2.2 hmem (List.mem_map_of_mem _ hb)
  rw [hcl]
  rw [dirExists_iff] at hbdir ⊢
  obtain ⟨d, hd, he⟩ := hbdir
  refine ⟨d, ?_, he⟩
  simp only [List.mem_filter]
  refine ⟨hd, ?_⟩
  rw [he]
  simpa using hnotgood

theorem C8_witness :
    (BackupManager.cleanup_old_backups bmK1 fsFive).1
      = .error (.removeFailed ("dmpool_backup_" ++ fmtTimestamp 3)) ∧
    dirExists (BackupManager.cleanup_old_backups bmK1 fsFive).2
      ("dmpool_backup_" ++ fmtTimestamp 1) = true := by
  have h := C8_cleanup_failfast bmK1 fsFive
    [⟨"dmpool_backup_" ++ fmtTimestamp 4, 4, "/data/store",
      "dmpool_backup_" ++ fmtTimestamp 4, 1, "0.1.0"⟩]
    ⟨"dmpool_backup_" ++ fmtTimestamp 3, 3, "/data/store",
      "dmpool_backup_" ++ fmtTimestamp 3, 1, "0.1.0"⟩
    [⟨"dmpool_backup_" ++ fmtTimestamp 2, 2, "/data/store",
      "dmpool_backup_" ++ fmtTimestamp 2, 1, "0.1.0"⟩,
     ⟨"dmpool_backup_" ++ fmtTimestamp 1, 1, "/data/store",
      "dmpool_backup_" ++ fmtTimestamp 1, 1, "0.1.0"⟩]
    (by decide) (by decide) (by decide) (by decide) (by decide) (by decide)
  constructor
  · rw [h.1]
  · exact h.2 ⟨"dmpool_backup_" ++ fmtTimestamp 1, 1, "/data/store",
      "dmpool_backup_" ++ fmtTimestamp 1, 1, "0.1.0"⟩ (by decide)

/-! Helper lemmas: transport along cleanup and record normal forms. -/

theorem getDir_mk_eq (lv : Option (List FsFile)) (u : List String)
    (l : List FsDir) (n : String) :
    getDir ⟨lv, l, u⟩ n = (l.find? (fun d => d.name == n)).getD ⟨n, [], 0⟩ := rfl

theorem dirExists_mk_eq (lv : Option (List FsFile)) (u : List String)
    (l : List FsDir) (n : String) :
    dirExists ⟨lv, l, u⟩ n = l.any (fun d => d.name == n) := rfl

theorem dirsNodup_sublist {fs1 fs2 : FileSys} (h : fs1.backups.Sublist fs2.backups)
    (hnd : dirsNodup fs2) : dirsNodup fs1 :=
  (h.map _).nodup hnd

theorem dirsNodup_append (lv : Option (List FsFile)) (u : List String)
    (bks : List FsDir) (dd : FsDir)
    (hnd : dirsNodup ⟨lv, bks, u⟩) (hfresh : dirExists ⟨lv, bks, u⟩ dd.name = false) :
    dirsNodup ⟨lv, bks ++ [dd], u⟩ := by
  unfold dirsNodup at hnd ⊢
  rw [List.map_append, List.nodup_append]
  refine ⟨hnd, by simp, ?_⟩
  intro a ha hb
  simp only [List.map_cons, List.map_nil, List.mem_singleton] at hb
  rw [dirExists_mk_eq, List.any_eq_false] at hfresh
  rw [List.mem_map] at ha
  obtain ⟨d, hd, he⟩ := ha
  exact hfresh d hd (by rw [he, hb]; simp)

theorem filesNodup_append_one (lf : List FsFile) (f : FsFile)
    (h : filesNodup lf) (hn : ∀ g ∈ lf, g.name ≠ f.name) : filesNodup (lf ++ [f]) := by
  unfold filesNodup at h ⊢
  rw [List.map_append, List.nodup_append]
  refine ⟨h, by simp, ?_⟩
  intro a ha hb
  simp only [List.map_cons, List.map_nil, List.mem_singleton] at hb
  rw [List.mem_map] at ha
  obtain ⟨g, hg, he⟩ := ha
  exact hn g hg (by rw [he, hb])

theorem getDir_sublist (fs1 fs2 : FileSys) (hsub : fs1.backups.Sublist fs2.backups)
    (hnd2 : dirsNodup fs2) (n : String) (hex : dirExists fs1 n = true) :
    getDir fs1 n = getDir fs2 n ∧ dirExists fs2 n = true := by
  unfold dirExists at hex
  rw [List.any_eq_true] at hex
  obtain ⟨d, hd, hdn⟩ := hex
  have hd2 : d ∈ fs2.backups := hsub.subset hd
  have hex2 : dirExists fs2 n = true := by
    unfold dirExists
    rw [List.any_eq_true]
    exact ⟨d, hd2, hdn⟩
  refine ⟨?_, hex2⟩
  obtain ⟨e1, hf1⟩ : ∃ e, fs1.backups.find? (fun d => d.name == n) = some e := by
    have : (fs1.backups.find? (fun d => d.name == n)).isSome := by
      rw [List.find?_isSome]
      exact ⟨d, hd, hdn⟩
    exact Option.isSome_iff_exists.mp this
  obtain ⟨e2, hf2⟩ : ∃ e, fs2.backups.find? (fun d => d.name == n) = some e := by
    have : (fs2.backups.find? (fun d => d.name == n)).isSome := by
      rw [List.find?_isSome]
      exact ⟨d, hd2, hdn⟩
    exact Option.isSome_iff_exists.mp this
  have he1 : e1 ∈ fs2.backups := hsub.subset (List.mem_of_find?_eq_some hf1)
  have he2 : e2 ∈ fs2.backups := List.mem_of_find?_eq_some hf2
  have hn1 : e1.name = n := by simpa using List.find?_some hf1
  have hn2 : e2.name = n := by simpa using List.find?_some hf2
  have : e1 = e2 := List.inj_on_of_nodup_map hnd2 he1 he2 (by rw [hn1, hn2])
  unfold getDir
  rw [hf1, hf2, this]

/-- C6 as stated is false on the code: restore copies the metadata.json
sidecar of the restored backup into the live directory, and the following
create_backup copies it into the new backup directory before overwriting
it with the new backup's own sidecar; the filename sets of the two backup
directories coincide but the byte contents of metadata.json differ. -/
theorem C6_counterexample :
    (getDir fsRound3 ("dmpool_backup_" ++ fmtTimestamp 9)).files.map FsFile.name
      = (getDir fsRound3 ("dmpool_backup_" ++ fmtTimestamp 5)).files.map FsFile.name ∧
    getFile (getDir fsRound3 ("dmpool_backup_" ++ fmtTimestamp 9)).files "metadata.json"
      ≠ getFile (getDir fsRound3 ("dmpool_backup_" ++ fmtTimestamp 5)).files "metadata.json" := by
  decide

/-- C6 amended: restoring backup name1 and then creating a fresh backup of
the restored live data yields a backup directory with the same filename
set as backup name1, and identical contents for every filename other than
the metadata.json sidecar; the sidecars differ, each recording its own
backup's metadata (the restored sidecar of name1 is copied into the live
data and then overwritten in the new directory by save_metadata). -/
theorem C6_roundtrip_amended (bm : BackupManager) (t1 t2 t3 : Nat)
    (lf : List FsFile) (bks : List FsDir) (und : List String)
    (m1 m2 : BackupMetadata) (fs1 fsF : FileSys)
    (hnodupL : filesNodup lf)
    (hnometa : ∀ g ∈ lf, g.name ≠ "metadata.json")
    (hcur : (getFile lf "CURRENT").isSome = true)
    (hnd : dirsNodup ⟨some lf, bks, und⟩)
    (hfresh1 : dirExists ⟨some lf, bks, und⟩ ("dmpool_backup_" ++ fmtTimestamp t1) = false)
    (h1 : BackupManager.backup bm t1 ⟨some lf, bks, und⟩ = (.ok m1, fs1))
    (hsurv1 : dirExists fs1 ("dmpool_backup_" ++ fmtTimestamp t1) = true)
    (hpre2 : dirExists fs1 ("pre_restore_" ++ fmtTimestamp t2) = false)
    (hfresh3 : dirExists fs1 ("dmpool_backup_" ++ fmtTimestamp t3) = false)
    (h2 : BackupManager.backup bm t3
        (BackupManager.restore bm ("dmpool_backup_" ++ fmtTimestamp t1) t2 fs1).2
      = (.ok m2, fsF))
    (hsurvF1 : dirExists fsF ("dmpool_backup_" ++ fmtTimestamp t1) = true)
    (hsurvF3 : dirExists fsF ("dmpool_backup_" ++ fmtTimestamp t3) = true)
    (hne13 : t1 ≠ t3) :
    (BackupManager.restore bm ("dmpool_backup_" ++ fmtTimestamp t1) t2 fs1).1 = .ok () ∧
    (getDir fsF ("dmpool_backup_" ++ fmtTimestamp t3)).files.map FsFile.name
      = (getDir fsF ("dmpool_backup_" ++ fmtTimestamp t1)).files.map FsFile.name ∧
    (∀ n, n ≠ "metadata.json" →
      getFile (getDir fsF ("dmpool_backup_" ++ fmtTimestamp t3)).files n
        = getFile (getDir fsF ("dmpool_backup_" ++ fmtTimestamp t1)).files n) ∧
    getFile (getDir fsF ("dmpool_backup_" ++ fmtTimestamp t3)).files "metadata.json"
      = some (.meta m2) ∧
    getFile (getDir fsF ("dmpool_backup_" ++ fmtTimestamp t1)).files "metadata.json"
      = some (.meta m1) ∧
    m2 ≠ m1 := by
  have hput1 : putFile lf ⟨"metadata.json", FContent.meta (mkMeta bm t1 lf)⟩
      = lf ++ [⟨"metadata.json", FContent.meta (mkMeta bm t1 lf)⟩] :=
    putFile_absent lf _ hnometa
  have hneW1 : ∀ d ∈ bks, d.name ≠ ("dmpool_backup_" ++ fmtTimestamp t1) := by
    intro d hd he
    rw [dirExists_mk_eq, List.any_eq_false] at hfresh1
    exact hfresh1 d hd (by simpa using he)
  rw [backup_eq bm t1 lf bks und hfresh1 hnodupL] at h1
  rcases hcl1 : BackupManager.cleanup_old_backups bm
      ⟨some lf, bks ++ [⟨"dmpool_backup_" ++ fmtTimestamp t1,
        putFile lf ⟨"metadata.json", FContent.meta (mkMeta bm t1 lf)⟩, t1⟩], und⟩
    with ⟨res1, fs4⟩
  rw [hcl1] at h1
  cases res1 with
  | error e => simp at h1
  | ok u =>
  simp only [Prod.mk.injEq, Except.ok.injEq] at h1
  obtain ⟨hm1, hfs1⟩ := h1
  subst hm1
  subst hfs1
  have hst1 := cleanup_state bm
      ⟨some lf, bks ++ [⟨"dmpool_backup_" ++ fmtTimestamp t1,
        putFile lf ⟨"metadata.json", FContent.meta (mkMeta bm t1 lf)⟩, t1⟩], und⟩
  rw [hcl1] at hst1
  have hndW1 : dirsNodup
      ⟨some lf, bks ++ [⟨"dmpool_backup_" ++ fmtTimestamp t1,
        putFile lf ⟨"metadata.json", FContent.meta (mkMeta bm t1 lf)⟩, t1⟩], und⟩ :=
    dirsNodup_append (some lf) und bks _ hnd hfresh1
  have hnd4 : dirsNodup fs4 := dirsNodup_sublist hst1.2.2 hndW1
  have hgdW1 : getDir
      ⟨some lf, bks ++ [⟨"dmpool_backup_" ++ fmtTimestamp t1,
        putFile lf ⟨"metadata.json", FContent.meta (mkMeta bm t1 lf)⟩, t1⟩], und⟩
      ("dmpool_backup_" ++ fmtTimestamp t1)
      = ⟨"dmpool_backup_" ++ fmtTimestamp t1,
          putFile lf ⟨"metadata.json", FContent.meta (mkMeta bm t1 lf)⟩, t1⟩ :=
    getDir_mk_last (some lf) und bks _ hneW1
  have hgd1 := (getDir_sublist fs4 _ hst1.2.2 hndW1
    ("dmpool_backup_" ++ fmtTimestamp t1) hsurv1).1
  rw [hgdW1, hput1] at hgd1
  rcases fs4 with ⟨lv4, bks4, und4⟩
  have hlv4 : lv4 = some lf := hst1.1
  subst hlv4
  -- the restore call
  have hmload : BackupManager.load_metadata bm
      (getDir ⟨some lf, bks4, und4⟩ ("dmpool_backup_" ++ fmtTimestamp t1))
      = .ok (mkMeta bm t1 lf) := by
    rw [hgd1]
    unfold BackupManager.load_metadata
    dsimp only
    rw [getFile_append_last lf _ hnometa]
  have hcur1 : (getFile
      (getDir ⟨some lf, bks4, und4⟩ ("dmpool_backup_" ++ fmtTimestamp t1)).files
      "CURRENT").isSome = true := by
    rw [hgd1]
    dsimp only
    rw [getFile_append_ne lf (⟨"metadata.json", FContent.meta (mkMeta bm t1 lf)⟩ : FsFile)
      "CURRENT" (show ("metadata.json" : String) ≠ "CURRENT" by decide)]
    exact hcur
  have hrest := restore_eq bm ("dmpool_backup_" ++ fmtTimestamp t1) t2 lf bks4 und4
    (mkMeta bm t1 lf) hsurv1 hmload rfl hcur1 hpre2
  have hnodupL1 : filesNodup
      (lf ++ [⟨"metadata.json", FContent.meta (mkMeta bm t1 lf)⟩]) :=
    filesNodup_append_one lf _ hnodupL hnometa
  rw [hgd1] at hrest
  dsimp only at hrest
  rw [copyFiles_nil _ hnodupL1, copyFiles_nil lf hnodupL] at hrest
  refine ⟨by rw [hrest], ?_⟩
  -- the second backup
  rw [hrest] at h2
  dsimp only at h2
  have hn1pre : ("dmpool_backup_" ++ fmtTimestamp t1) ≠ ("pre_restore_" ++ fmtTimestamp t2) := by
    intro he
    rw [he] at hsurv1
    rw [hsurv1] at hpre2
    simp at hpre2
  have hn3pre : ("dmpool_backup_" ++ fmtTimestamp t3) ≠ ("pre_restore_" ++ fmtTimestamp t2) :=
    ne_of_startsWith_ne (strStartsWith_append _ _) (strStartsWith_pre _)
  have hfresh3' : dirExists
      ⟨some (lf ++ [⟨"metadata.json", FContent.meta (mkMeta bm t1 lf)⟩]),
       bks4 ++ [⟨"pre_restore_" ++ fmtTimestamp t2, lf, t2⟩], und4⟩
      ("dmpool_backup_" ++ fmtTimestamp t3) = false := by
    rw [dirExists_mk_eq, List.any_append]
    have ha : bks4.any (fun d => d.name == ("dmpool_backup_" ++ fmtTimestamp t3)) = false :=
      hfresh3
    rw [ha]
    simp only [List.any_cons, List.any_nil, Bool.or_false, Bool.false_or]
    simpa using fun he => hn3pre he.symm
  rw [backup_eq bm t3 (lf ++ [(⟨"metadata.json", FContent.meta (mkMeta bm t1 lf)⟩ : FsFile)])
    (bks4 ++ [(⟨"pre_restore_" ++ fmtTimestamp t2, lf, t2⟩ : FsDir)])
    und4 hfresh3' hnodupL1] at h2
  rcases hcl3 : BackupManager.cleanup_old_backups bm
      ⟨some (lf ++ [⟨"metadata.json", FContent.meta (mkMeta bm t1 lf)⟩]),
       (bks4 ++ [⟨"pre_restore_" ++ fmtTimestamp t2, lf, t2⟩])
         ++ [⟨"dmpool_backup_" ++ fmtTimestamp t3,
              putFile (lf ++ [⟨"metadata.json", FContent.meta (mkMeta bm t1 lf)⟩])
                ⟨"metadata.json", FContent.meta (mkMeta bm t3
                  (lf ++ [⟨"metadata.json", FContent.meta (mkMeta bm t1 lf)⟩]))⟩, t3⟩], und4⟩
    with ⟨res3, fsz⟩
  rw [hcl3] at h2
  cases res3 with
  | error e => simp at h2
  | ok u3 =>
  simp only [Prod.mk.injEq, Except.ok.injEq] at h2
  obtain ⟨hm2, hfsF⟩ := h2
  subst hm2
  subst hfsF
  have hput3 : putFile (lf ++ [⟨"metadata.json", FContent.meta (mkMeta bm t1 lf)⟩])
      ⟨"metadata.json", FContent.meta (mkMeta bm t3
        (lf ++ [⟨"metadata.json", FContent.meta (mkMeta bm t1 lf)⟩]))⟩
      = lf ++ [⟨"metadata.json", FContent.meta (mkMeta bm t3
          (lf ++ [⟨"metadata.json", FContent.meta (mkMeta bm t1 lf)⟩]))⟩] :=
    putFile_replace_last lf "metadata.json" _ _ hnometa
  have hst3 := cleanup_state bm
      ⟨some (lf ++ [⟨"metadata.json", FContent.meta (mkMeta bm t1 lf)⟩]),
       (bks4 ++ [⟨"pre_restore_" ++ fmtTimestamp t2, lf, t2⟩])
         ++ [⟨"dmpool_backup_" ++ fmtTimestamp t3,
              putFile (lf ++ [⟨"metadata.json", FContent.meta (mkMeta bm t1 lf)⟩])
                ⟨"metadata.json", FContent.meta (mkMeta bm t3
                  (lf ++ [⟨"metadata.json", FContent.meta (mkMeta bm t1 lf)⟩]))⟩, t3⟩], und4⟩
  rw [hcl3] at hst3
  have hndfs2 : dirsNodup
      ⟨some (lf ++ [⟨"metadata.json", FContent.meta (mkMeta bm t1 lf)⟩]),
       bks4 ++ [⟨"pre_restore_" ++ fmtTimestamp t2, lf, t2⟩], und4⟩ :=
    dirsNodup_append _ _ bks4 _ hnd4 hpre2
  have hndW3 : dirsNodup
      ⟨some (lf ++ [⟨"metadata.json", FContent.meta (mkMeta bm t1 lf)⟩]),
       (bks4 ++ [⟨"pre_restore_" ++ fmtTimestamp t2, lf, t2⟩])
         ++ [⟨"dmpool_backup_" ++ fmtTimestamp t3,
              putFile (lf ++ [⟨"metadata.json", FContent.meta (mkMeta bm t1 lf)⟩])
                ⟨"metadata.json", FContent.meta (mkMeta bm t3
                  (lf ++ [⟨"metadata.json", FContent.meta (mkMeta bm t1 lf)⟩]))⟩, t3⟩], und4⟩ :=
    dirsNodup_append _ _ _ _ hndfs2 hfresh3'
  have hneW3 : ∀ d ∈ bks4 ++ [(⟨"pre_restore_" ++ fmtTimestamp t2, lf, t2⟩ : FsDir)],
      d.name ≠ ("dmpool_backup_" ++ fmtTimestamp t3) := by
    intro d hd he
    rw [dirExists_mk_eq, List.any_eq_false] at hfresh3'
    exact hfresh3' d hd (by simpa using he)
  have hgdW3 : getDir
      ⟨some (lf ++ [⟨"metadata.json", FContent.meta (mkMeta bm t1 lf)⟩]),
       (bks4 ++ [⟨"pre_restore_" ++ fmtTimestamp t2, lf, t2⟩])
         ++ [⟨"dmpool_backup_" ++ fmtTimestamp t3,
              putFile (lf ++ [⟨"metadata.json", FContent.meta (mkMeta bm t1 lf)⟩])
                ⟨"metadata.json", FContent.meta (mkMeta bm t3
                  (lf ++ [⟨"metadata.json", FContent.meta (mkMeta bm t1 lf)⟩]))⟩, t3⟩], und4⟩
      ("dmpool_backup_" ++ fmtTimestamp t3)
      = ⟨"dmpool_backup_" ++ fmtTimestamp t3,
          putFile (lf ++ [⟨"metadata.json", FContent.meta (mkMeta bm t1 lf)⟩])
            ⟨"metadata.json", FContent.meta (mkMeta bm t3
              (lf ++ [⟨"metadata.json", FContent.meta (mkMeta bm t1 lf)⟩]))⟩, t3⟩ :=
    getDir_mk_last _ _ _ _ hneW3
  have hgd3 := (getDir_sublist fsz _ hst3.2.2 hndW3
    ("dmpool_backup_" ++ fmtTimestamp t3) hsurvF3).1
  rw [hgdW3, hput3] at hgd3
  have hn13 : ("dmpool_backup_" ++ fmtTimestamp t1) ≠ ("dmpool_backup_" ++ fmtTimestamp t3) := by
    intro he
    rw [← he] at hfresh3
    rw [hsurv1] at hfresh3
    simp at hfresh3
  have hgdF1 := (getDir_sublist fsz _ hst3.2.2 hndW3
    ("dmpool_backup_" ++ fmtTimestamp t1) hsurvF1).1
  rw [getDir_mk_append_ne _ _ _ _ _ hn13,
    getDir_mk_append_ne _ _ _ _ _ hn1pre] at hgdF1
  rw [show getDir ⟨some (lf ++ [⟨"metadata.json", FContent.meta (mkMeta bm t1 lf)⟩]),
        bks4, und4⟩ ("dmpool_backup_" ++ fmtTimestamp t1)
      = getDir ⟨some lf, bks4, und4⟩ ("dmpool_backup_" ++ fmtTimestamp t1) from rfl,
    hgd1] at hgdF1
  rw [hgd3, hgdF1]
  dsimp only
  refine ⟨by simp, ?_, ?_, ?_, ?_⟩
  · intro n hn
    rw [getFile_append_ne lf _ n (fun he => hn he.symm),
      getFile_append_ne lf _ n (fun he => hn he.symm)]
  · exact getFile_append_last lf _ hnometa
  · exact getFile_append_last lf _ hnometa
  · intro he
    have := congrArg BackupMetadata.created_at he
    unfold mkMeta at this
    dsimp only at this
    exact hne13 this.symm

theorem C6_roundtrip_witness :
    (getDir fsRound3 ("dmpool_backup_" ++ fmtTimestamp 9)).files.map FsFile.name
      = (getDir fsRound3 ("dmpool_backup_" ++ fmtTimestamp 5)).files.map FsFile.name ∧
    getFile (getDir fsRound3 ("dmpool_backup_" ++ fmtTimestamp 9)).files "000001.log"
      = getFile (getDir fsRound3 ("dmpool_backup_" ++ fmtTimestamp 5)).files "000001.log" := by
  have h := C6_roundtrip_amended bmA 5 7 9 liveA [] []
    (mkMeta bmA 5 liveA)
    (mkMeta bmA 9 (liveA ++ [⟨"metadata.json", FContent.meta (mkMeta bmA 5 liveA)⟩]))
    fsRound1 fsRound3
    (by decide) (by decide) (by decide) (by decide) (by decide)
    (by decide) (by decide) (by decide) (by decide) (by decide)
    (by decide) (by decide) (by decide)
  exact ⟨h.2.1, h.2.2.1 "000001.log" (by decide)⟩
